import Mathlib

/-!
# Verification of the Sunscreen frontend compiler core

This development gives a shallow embedding of the Sunscreen repository's core
(the `Fractional` plaintext codec, the frontend IR builder/context, the
lowering pass, and the backend transform pipeline) and proves properties of
the embedded definitions.

Machine integers are modelled as `ℕ`/`ℤ` with explicit wrap-around
(`% 2^64`) where the Rust source performs wrapping `u64`/`i64`/`usize`
arithmetic or casts.  An IEEE-754 double is modelled by its 64-bit pattern
(a natural number `< 2^64`), which is exactly what the source manipulates
after `std::mem::transmute`; the decoder's `f64` accumulation is modelled
over `ℚ` (each accumulated term is a signed integer multiple of a power of
two).
-/

deriving instance DecidableEq for Except

namespace Sunscreen

/-! ## Scheme parameters and runtime types

From `sunscreen_runtime` / `sunscreen_circuit` interface types used by the
codec (`Params`, `Plaintext`, `InnerPlaintext`, errors). -/

/-- `SchemeType` from `sunscreen_circuit`; only BFV is inhabited. -/
inductive SchemeType where
  | bfv

deriving DecidableEq, Repr

/-- `SecurityLevel` from `sunscreen_circuit`. -/
inductive SecurityLevel where
  | tc128
  | tc192
  | tc256

deriving DecidableEq, Repr

/-- `Params` record consumed by the codec: `lattice_dimension` and
`plain_modulus` are `u64` values (modelled as `ℕ`, with `< 2^64` stated as a
hypothesis where it matters). -/
structure Params where
  lattice_dimension : ℕ
  plain_modulus : ℕ
  coeff_modulus : List ℕ
  scheme_type : SchemeType
  security_level : SecurityLevel

deriving DecidableEq, Repr

/-- The runtime errors surfaced by the codec paths under verification. -/
inductive RuntimeError where
  | fheTypeError (msg : String)
  | incorrectCiphertextCount

deriving DecidableEq, Repr

/-- A Seal plaintext is its coefficient vector (`u64` coefficients);
`resize(n)` on a fresh plaintext yields `n` zero coefficients,
`set_coefficient` is `List.set` (in-range writes; the embedding makes an
out-of-range write a no-op), `get_coefficient i` for `i < len` is `getD`. -/
abbrev SealPlaintext := List ℕ

/-- `InnerPlaintext` from `sunscreen_runtime`: a vector of Seal plaintexts. -/
inductive InnerPlaintext where
  | seal (p : List SealPlaintext)

deriving DecidableEq, Repr

/-- `Plaintext` wrapper from `sunscreen_runtime`. -/
structure Plaintext where
  inner : InnerPlaintext

deriving DecidableEq, Repr

/-- `Fractional<INT_BITS>` wraps a double; the double's numeric value is
modelled in `ℚ`. -/
structure Fractional where
  val : ℚ

deriving DecidableEq, Repr

/-! ## Bit-level view of an `f64`

The encoder transmutes the `f64` to a `u64` and works on the bit pattern, so
a double is embedded as its bit pattern `w : ℕ` (with `w < 2^64`).  The
`f64` classification predicates (`is_nan`, `is_infinite`, `is_subnormal`,
`== 0.0`) are the standard IEEE-754 conditions on the fields of the
pattern. -/

/-- `sign_mask = 0x1 << 63` from the source. -/
def signMask : ℕ := 1 <<< 63

/-- `mantissa_mask = 0xFFFFFFFFFFFFF` from the source. -/
def mantissaMask : ℕ := 0xFFFFFFFFFFFFF

/-- `exp_mask = !mantissa_mask & !sign_mask` (`u64` complement is xor with
`2^64 - 1`). -/
def expMask : ℕ := (mantissaMask ^^^ (2 ^ 64 - 1)) &&& (signMask ^^^ (2 ^ 64 - 1))

/-- The 11-bit biased exponent field of the pattern. -/
def expField (w : ℕ) : ℕ := (w &&& expMask) >>> 52

/-- The 52-bit stored mantissa field of the pattern. -/
def mantissaField (w : ℕ) : ℕ := w &&& mantissaMask

/-- The sign bit of the pattern (`(as_u64 & sign_mask) >> 63`). -/
def signField (w : ℕ) : ℕ := (w &&& signMask) >>> 63

/-- `f64::is_nan`: exponent field all ones and nonzero mantissa. -/
def isNanBits (w : ℕ) : Prop := expField w = 2047 ∧ mantissaField w ≠ 0

/-- `f64::is_infinite`: exponent field all ones and zero mantissa. -/
def isInfiniteBits (w : ℕ) : Prop := expField w = 2047 ∧ mantissaField w = 0

/-- `f64::is_subnormal`: zero exponent field and nonzero mantissa. -/
def isSubnormalBits (w : ℕ) : Prop := expField w = 0 ∧ mantissaField w ≠ 0

/-- `x == 0.0`: zero exponent field and zero mantissa (either sign). -/
def isZeroBits (w : ℕ) : Prop := expField w = 0 ∧ mantissaField w = 0

instance (w : ℕ) : Decidable (isNanBits w) := by unfold isNanBits; infer_instance

instance (w : ℕ) : Decidable (isInfiniteBits w) := by unfold isInfiniteBits; infer_instance

instance (w : ℕ) : Decidable (isSubnormalBits w) := by unfold isSubnormalBits; infer_instance

instance (w : ℕ) : Decidable (isZeroBits w) := by unfold isZeroBits; infer_instance

/-- The exact numeric value of the (finite) double with bit pattern `w`:
`(-1)^s · (2^52 + m) · 2^(e - 1075)` for normal patterns and
`(-1)^s · m · 2^(-1074)` for zero/subnormal patterns. -/
def floatValQ (w : ℕ) : ℚ :=
  let s : ℚ := if signField w = 0 then 1 else -1
  if expField w = 0 then
    s * (mantissaField w : ℚ) * (2 : ℚ) ^ (-1074 : ℤ)
  else
    s * ((2 ^ 52 + mantissaField w : ℕ) : ℚ) * (2 : ℚ) ^ ((expField w : ℤ) - 1075)

/-- Rust's value-wrapping cast `usize as i64` (two's complement
reinterpretation of the low 64 bits). -/
def toI64 (x : ℕ) : ℤ := ((x : ℤ) + 2 ^ 63) % 2 ^ 64 - 2 ^ 63

/-! ## `Fractional::try_into_plaintext` (encoding) -/

/-- `let bit_value = (mantissa & 0x1 << i) >> i` from the encoding loop. -/
def encBitValue (mantissa i : ℕ) : ℕ := (mantissa &&& (1 <<< i)) >>> i

/-- `let bit_power = power - (f64::MANTISSA_DIGITS - i - 1) as i64`. -/
def encBitPower (power : ℤ) (i : ℕ) : ℤ := power - ((52 - i : ℕ) : ℤ)

/-- The encoding loop's coefficient index; the cast
`(n as i64 + bit_power) as usize` wraps modulo `2^64`. -/
def encCoeffIndex (n : ℕ) (bit_power : ℤ) : ℕ :=
  if 0 ≤ bit_power then bit_power.toNat
  else (((n : ℤ) + bit_power) % 2 ^ 64).toNat

/-- The digit sign: `sign` for non-negative bit powers, `!sign & 0x1`
otherwise (`u64` complement is xor with `2^64 - 1`). -/
def encSign (sign : ℕ) (bit_power : ℤ) : ℕ :=
  if 0 ≤ bit_power then sign else (sign ^^^ (2 ^ 64 - 1)) &&& 1

/-- The stored coefficient: the bit for positive digits, and
`plain_modulus - bit_value` (wrapping `u64` subtraction) for set negative
digits. -/
def encCoeff (t sign' bit_value : ℕ) : ℕ :=
  if sign' = 0 then bit_value
  else if 0 < bit_value then (((t : ℤ) - (bit_value : ℤ)) % 2 ^ 64).toNat else 0

/-- One iteration of the encoding loop of `try_into_plaintext`
(`for i in 0..f64::MANTISSA_DIGITS`), for mantissa-with-implicit-one
`mantissa`, unbiased exponent `power`, sign bit `sign`, lattice dimension
`n` and plain modulus `t`. -/
def encStep (n t : ℕ) (power : ℤ) (sign mantissa : ℕ) (pt : SealPlaintext) (i : ℕ) :
    SealPlaintext :=
  pt.set (encCoeffIndex n (encBitPower power i))
    (encCoeff t (encSign sign (encBitPower power i)) (encBitValue mantissa i))

/-- `Fractional::<INT_BITS>::try_into_plaintext` over the bit pattern `w` of
the input double. -/
def tryIntoPlaintext (INT_BITS : ℕ) (w : ℕ) (params : Params) :
    Except RuntimeError Plaintext :=
  if isNanBits w then .error (.fheTypeError "Value is NaN.")
  else if isInfiniteBits w then .error (.fheTypeError "Value is infinite.")
  else
    let n := params.lattice_dimension
    if isSubnormalBits w ∨ isZeroBits w then
      .ok ⟨.seal [List.replicate n 0]⟩
    else
      let mantissa : ℕ := mantissaField w ||| (mantissaMask + 1)
      let power : ℤ := (expField w : ℤ) - 1023
      let sign : ℕ := signField w
      if toI64 INT_BITS < power + 1 then .error (.fheTypeError "Out of range")
      else
        .ok ⟨.seal [(List.range 53).foldl
          (encStep n params.plain_modulus power sign mantissa)
          (List.replicate n 0)]⟩

/-! ## `Fractional::try_from_plaintext` (decoding) -/

/-- The decoder's per-index power: `i` when `i < INT_BITS`, else `i - n`. -/
def dPower (INT_BITS n i : ℕ) : ℤ :=
  if i < INT_BITS then (i : ℤ) else (i : ℤ) - (n : ℤ)

/-- One iteration of the decoding loop of `try_from_plaintext`:
`negative_cutoff = (plain_modulus + 1) / 2` in wrapping `u64` arithmetic,
and `plain_modulus - coeff` is a wrapping `u64` subtraction; the power-of-two
scaling `(power as f64).exp2()` and the accumulation are modelled over `ℚ`. -/
def decStep (INT_BITS n t : ℕ) (poly : SealPlaintext) (val : ℚ) (i : ℕ) : ℚ :=
  let power : ℤ := dPower INT_BITS n i
  let coeff : ℕ := poly.getD i 0
  let sign : ℚ := if 0 ≤ power then 1 else -1
  let negative_cutoff : ℕ := ((t + 1) % 2 ^ 64) / 2
  if coeff < negative_cutoff then
    val + sign * (coeff : ℚ) * (2 : ℚ) ^ power
  else
    val - sign * (((((t : ℤ) - (coeff : ℤ)) % 2 ^ 64).toNat : ℚ)) * (2 : ℚ) ^ power

/-- The decoded value of a single Seal plaintext's coefficient vector. -/
def decodeVal (INT_BITS n t : ℕ) (poly : SealPlaintext) : ℚ :=
  (List.range (min n poly.length)).foldl (decStep INT_BITS n t poly) 0

/-- `Fractional::<INT_BITS>::try_from_plaintext`. -/
def tryFromPlaintext (INT_BITS : ℕ) (plaintext : Plaintext) (params : Params) :
    Except RuntimeError Fractional :=
  match plaintext.inner with
  | .seal p =>
    if p.length ≠ 1 then .error .incorrectCiphertextCount
    else
      .ok ⟨decodeVal INT_BITS params.lattice_dimension params.plain_modulus p.headI⟩

/-- The decoder's per-index contribution to the accumulator. -/
def decContrib (INT_BITS n t : ℕ) (poly : SealPlaintext) (i : ℕ) : ℚ :=
  let power : ℤ := dPower INT_BITS n i
  let coeff : ℕ := poly.getD i 0
  let sign : ℚ := if 0 ≤ power then 1 else -1
  let negative_cutoff : ℕ := ((t + 1) % 2 ^ 64) / 2
  if coeff < negative_cutoff then sign * (coeff : ℚ) * (2 : ℚ) ^ power
  else -(sign * (((((t : ℤ) - (coeff : ℤ)) % 2 ^ 64).toNat : ℚ)) * (2 : ℚ) ^ power)

/-- The coefficient index written by encoding-loop iteration `i`. -/
def encIdx (n : ℕ) (power : ℤ) (i : ℕ) : ℕ := encCoeffIndex n (encBitPower power i)

/-- The coefficient value written by encoding-loop iteration `i`. -/
def encVal (t : ℕ) (power : ℤ) (sign mantissa : ℕ) (i : ℕ) : ℕ :=
  encCoeff t (encSign sign (encBitPower power i)) (encBitValue mantissa i)

/-! ## Frontend IR builder (`sunscreen_compiler/src/lib.rs`)

The frontend `StableGraph<Operation, OperandInfo>` is embedded as an
append-only node list plus an edge list: the builder API never removes
nodes, `add_node` returns the next index, and `add_edge` appends.  A node
id is its list position. -/

/-- Frontend `Literal`. -/
inductive Literal where
  | u64 (x : ℕ)

deriving DecidableEq, Repr

/-- Frontend `Operation`. -/
inductive Operation where
  | inputCiphertext
  | add
  | sub
  | multiply
  | literal (l : Literal)
  | rotateLeft
  | rotateRight
  | swapRows
  | output

deriving DecidableEq, Repr

/-- Frontend `OperandInfo` edge labels. -/
inductive OperandInfo where
  | left
  | right
  | unary

deriving DecidableEq, Repr

/-- The frontend graph: node list (ids are positions) and labelled edges
`(source, target, role)`. -/
structure FrontendGraph where
  nodes : List Operation
  edges : List (ℕ × ℕ × OperandInfo)

deriving DecidableEq, Repr

/-- `StableGraph::add_node`: appends and returns the fresh id. -/
def FrontendGraph.addNode (g : FrontendGraph) (op : Operation) : FrontendGraph × ℕ :=
  ({ nodes := g.nodes ++ [op], edges := g.edges }, g.nodes.length)

/-- `StableGraph::add_edge`. -/
def FrontendGraph.addEdge (g : FrontendGraph) (a b : ℕ) (e : OperandInfo) : FrontendGraph :=
  { nodes := g.nodes, edges := g.edges ++ [(a, b, e)] }

/-- `FrontendCompilation`. -/
structure FrontendCompilation where
  graph : FrontendGraph

deriving DecidableEq, Repr

/-- `Context`: frontend compilation, parameters, and the arena of node-id
slices (`indicies_store`). -/
structure Context where
  compilation : FrontendCompilation
  params : Params
  indicies_store : List ℕ

deriving DecidableEq, Repr

/-- `Context::new`. -/
def Context.new (params : Params) : Context :=
  { compilation := ⟨⟨[], []⟩⟩, params := params, indicies_store := [] }

/-- `Context::add_2_input`. -/
def Context.add2Input (c : Context) (op : Operation) (left right : ℕ) : Context × ℕ :=
  let (g, new_id) := c.compilation.graph.addNode op
  let g := g.addEdge left new_id .left
  let g := g.addEdge right new_id .right
  ({ c with compilation := ⟨g⟩ }, new_id)

/-- `Context::add_1_input`. -/
def Context.add1Input (c : Context) (op : Operation) (i : ℕ) : Context × ℕ :=
  let (g, new_id) := c.compilation.graph.addNode op
  let g := g.addEdge i new_id .unary
  ({ c with compilation := ⟨g⟩ }, new_id)

/-- `Context::add_input`. -/
def Context.addInput (c : Context) : Context × ℕ :=
  let (g, new_id) := c.compilation.graph.addNode .inputCiphertext
  ({ c with compilation := ⟨g⟩ }, new_id)

/-- `Context::add_subtraction`. -/
def Context.addSubtraction (c : Context) (left right : ℕ) : Context × ℕ :=
  c.add2Input .sub left right

/-- `Context::add_addition`. -/
def Context.addAddition (c : Context) (left right : ℕ) : Context × ℕ :=
  c.add2Input .add left right

/-- `Context::add_multiplication`. -/
def Context.addMultiplication (c : Context) (left right : ℕ) : Context × ℕ :=
  c.add2Input .multiply left right

/-- The scan of `add_literal`: over `node_indices()`, keep indices whose
node equals the literal, and take `.nth(0)`. -/
def findLiteral (g : FrontendGraph) (lit : Literal) : Option ℕ :=
  ((List.range g.nodes.length).filterMap
    (fun i => match g.nodes[i]? with
      | some (Operation.literal x) => if x = lit then some i else none
      | _ => none)).head?

/-- `Context::add_literal`: return any existing node with the same literal
value, else add a new node. -/
def Context.addLiteral (c : Context) (lit : Literal) : Context × ℕ :=
  match findLiteral c.compilation.graph lit with
  | some x => (c, x)
  | none =>
    let (g, new_id) := c.compilation.graph.addNode (.literal lit)
    ({ c with compilation := ⟨g⟩ }, new_id)

/-- `Context::add_rotate_left`. -/
def Context.addRotateLeft (c : Context) (left right : ℕ) : Context × ℕ :=
  c.add2Input .rotateLeft left right

/-- `Context::add_rotate_right`. -/
def Context.addRotateRight (c : Context) (left right : ℕ) : Context × ℕ :=
  c.add2Input .rotateRight left right

/-- `Context::add_output`. -/
def Context.addOutput (c : Context) (i : ℕ) : Context × ℕ :=
  c.add1Input .output i

/-- The contexts reachable through the public builder API. -/
inductive ContextReachable : Context → Prop where
  | new (params : Params) : ContextReachable (Context.new params)
  | addInput {c} : ContextReachable c → ContextReachable c.addInput.1
  | addAddition {c} (l r : ℕ) : ContextReachable c → ContextReachable (c.addAddition l r).1
  | addSubtraction {c} (l r : ℕ) : ContextReachable c → ContextReachable (c.addSubtraction l r).1
  | addMultiplication {c} (l r : ℕ) :
      ContextReachable c → ContextReachable (c.addMultiplication l r).1
  | addRotateLeft {c} (l r : ℕ) : ContextReachable c → ContextReachable (c.addRotateLeft l r).1
  | addRotateRight {c} (l r : ℕ) : ContextReachable c → ContextReachable (c.addRotateRight l r).1
  | addOutput {c} (i : ℕ) : ContextReachable c → ContextReachable (c.addOutput i).1
  | addLiteral {c} (lit : Literal) : ContextReachable c → ContextReachable (c.addLiteral lit).1

/-! ## Backend circuit (`sunscreen_circuit`, interface) and lowering

The backend `Circuit` holds a `StableGraph<NodeInfo, EdgeInfo>`; node slots
are `Option` so that pruning can remove nodes while preserving surviving
ids. -/

/-- Backend `Literal` (imported as `CircuitLiteral` in the source). -/
inductive CircuitLiteral where
  | u64 (x : ℕ)

deriving DecidableEq, Repr

/-- Backend `OuterLiteral` (`CircuitOuterLiteral`). -/
inductive OuterLiteral where
  | scalar (l : CircuitLiteral)

deriving DecidableEq, Repr

/-- Backend `Operation` (`CircuitOperation`). -/
inductive CircuitOperation where
  | inputCiphertext (i : ℕ)
  | literal (l : OuterLiteral)
  | add
  | sub
  | multiply
  | shiftLeft
  | shiftRight
  | swapRows
  | outputCiphertext
  | relinearize

deriving DecidableEq, Repr

/-- Backend `NodeInfo` (`NodeInfo::new` wraps an operation). -/
structure NodeInfo where
  operation : CircuitOperation

deriving DecidableEq, Repr

/-- Backend `EdgeInfo` operand labels. -/
inductive EdgeInfo where
  | leftOperand
  | rightOperand
  | unaryOperand

deriving DecidableEq, Repr

/-- The backend circuit: scheme tag plus the stable graph (slot `none` is a
removed node). -/
structure Circuit where
  scheme : SchemeType
  nodes : List (Option NodeInfo)
  edges : List (ℕ × ℕ × EdgeInfo)

deriving DecidableEq, Repr

/-- The node-label part of `FrontendCompilation::compile`'s `graph.map`
closure: each frontend node maps to one backend node, and an
`InputCiphertext` at frontend id `id` maps to
`InputCiphertext(id.index())`. -/
def lowerOp (id : ℕ) : Operation → CircuitOperation
  | .add => .add
  | .inputCiphertext => .inputCiphertext id
  | .literal (.u64 x) => .literal (.scalar (.u64 x))
  | .sub => .sub
  | .multiply => .multiply
  | .output => .outputCiphertext
  | .rotateLeft => .shiftLeft
  | .rotateRight => .shiftRight
  | .swapRows => .swapRows

/-- The edge-label part of the `graph.map` closure. -/
def lowerEdge : OperandInfo → EdgeInfo
  | .left => .leftOperand
  | .right => .rightOperand
  | .unary => .unaryOperand

/-- The lowering step of `FrontendCompilation::compile`: map node and edge
labels in place (`graph.map` preserves ids and edges). -/
def lowerGraph (fc : FrontendCompilation) : Circuit :=
  { scheme := .bfv
  , nodes := fc.graph.nodes.mapIdx (fun i op => some ⟨lowerOp i op⟩)
  , edges := fc.graph.edges.map (fun e => (e.1, e.2.1, lowerEdge e.2.2)) }

/-- The insertion position of input node `k` among all input nodes
(insertion order is id order in the append-only frontend graph). -/
def inputPosition (fc : FrontendCompilation) (k : ℕ) : ℕ :=
  ((List.range k).filter
    (fun j => fc.graph.nodes[j]? = some Operation.inputCiphertext)).length

/-! ## Backend transforms (`sunscreen_backend/src/transforms/mod.rs`)

`transform_intermediate_represenation` applies
`apply_insert_relinearizations` and then prunes to the ancestors of the
output nodes.  The bodies of `apply_insert_relinearizations`
(`transforms/insert_relinearizations.rs`) and of `Circuit::prune` /
`Circuit::get_outputs` (the `sunscreen_circuit` crate) are not among the
provided sources, so they are modelled from the spec (§4.5, §4.6). -/

/-- Modelled from the spec: one step of `apply_insert_relinearizations`
(spec §4.5; `sunscreen_backend/src/transforms/insert_relinearizations.rs`
is missing from the provided sources) at a `Multiply` node `m`: enumerate
the outgoing edges of `m`, insert a fresh `Relinearize` node `r`, insert
the edge `(m, r, UnaryOperand)`, and replace each original outgoing edge
`(m, c, role)` by `(r, c, role)`. -/
def relinStep (c : Circuit) (m : ℕ) : Circuit :=
  let outs := c.edges.filter (fun e => e.1 = m)
  let r := c.nodes.length
  { scheme := c.scheme
  , nodes := c.nodes ++ [some ⟨.relinearize⟩]
  , edges := c.edges.filter (fun e => ¬ e.1 = m)
      ++ (m, r, EdgeInfo.unaryOperand) :: outs.map (fun e => (r, e.2.1, e.2.2)) }

/-- Modelled from the spec: the id-ordered `Multiply` nodes of the input
graph (spec §4.5: a stable, id-ordered traversal; nodes inserted during
the pass are not revisited). -/
def multiplyIds (c : Circuit) : List ℕ :=
  (List.range c.nodes.length).filter
    (fun i => c.nodes.getD i none = some ⟨.multiply⟩)

/-- Modelled from the spec: `apply_insert_relinearizations` processes every
`Multiply` node of the input circuit. -/
def applyInsertRelinearizations (c : Circuit) : Circuit :=
  (multiplyIds c).foldl relinStep c

/-- Modelled from the spec: `Circuit::get_outputs` (the `sunscreen_circuit`
crate is not among the provided sources) — the ids of all
`OutputCiphertext` nodes. -/
def getOutputs (c : Circuit) : List ℕ :=
  (List.range c.nodes.length).filter
    (fun i => c.nodes.getD i none = some ⟨.outputCiphertext⟩)

/-- Modelled from the spec: one reverse-traversal expansion step of the
ancestor computation (spec §4.6): add the sources of all data-dependency
edges into the current set. -/
def ancestorStep (c : Circuit) (S : Finset ℕ) : Finset ℕ :=
  S ∪ ((c.edges.filter (fun e => e.2.1 ∈ S)).map (fun e => e.1)).toFinset

/-- Modelled from the spec: the set of ancestors (inclusive) of the output
nodes, computed by `|nodes|` reverse-traversal expansions. -/
def ancestorSet (c : Circuit) : Finset ℕ :=
  (ancestorStep c)^[c.nodes.length] (getOutputs c).toFinset

/-- Modelled from the spec: `Circuit::prune` (spec §4.6; the
`sunscreen_circuit` crate is not among the provided sources) — remove all
nodes outside the outputs' ancestor set together with their incident
edges; surviving node ids are unchanged. -/
def prune (c : Circuit) : Circuit :=
  { scheme := c.scheme
  , nodes := c.nodes.mapIdx (fun i op => if i ∈ ancestorSet c then op else none)
  , edges := c.edges.filter (fun e => e.1 ∈ ancestorSet c ∧ e.2.1 ∈ ancestorSet c) }

/-- `transform_intermediate_represenation` from
`sunscreen_backend/src/transforms/mod.rs`: insert relinearizations, then
dead-code-eliminate by pruning to the outputs' ancestors. -/
def transform_intermediate_represenation (c : Circuit) : Circuit :=
  prune (applyInsertRelinearizations c)

/-- A data-dependency edge from `a` to `b`. -/
def edgeRel (c : Circuit) (a b : ℕ) : Prop :=
  ∃ role : EdgeInfo, (a, b, role) ∈ c.edges

/-- Every edge endpoint references a live node (a `StableGraph`
invariant). -/
def liveEdges (c : Circuit) : Prop :=
  ∀ e ∈ c.edges, c.nodes.getD e.1 none ≠ none ∧ c.nodes.getD e.2.1 none ≠ none

instance (c : Circuit) : Decidable (liveEdges c) := by
  unfold liveEdges
  infer_instance

/-! ## Theorems -/

/-! ## Helper lemmas for the codec -/

theorem toI64_of_lt {x : ℕ} (h : x < 2 ^ 63) : toI64 x = x := by
  unfold toI64
  have h1 : ((x : ℤ) + 2 ^ 63) % 2 ^ 64 = (x : ℤ) + 2 ^ 63 :=
    Int.emod_eq_of_lt (by positivity) (by omega)
  rw [h1]
  ring

theorem subnormal_or_zero_iff (w : ℕ) :
    (isSubnormalBits w ∨ isZeroBits w) ↔ expField w = 0 := by
  unfold isSubnormalBits isZeroBits
  tauto

theorem bitValue_le_one (m i : ℕ) : encBitValue m i ≤ 1 := by
  rw [encBitValue, Nat.shiftRight_eq_div_pow]
  calc (m &&& (1 <<< i)) / 2 ^ i ≤ (1 <<< i) / 2 ^ i :=
        Nat.div_le_div_right Nat.and_le_right
    _ = 1 := by
        rw [Nat.one_shiftLeft]
        exact Nat.div_self (Nat.pos_pow_of_pos i (by norm_num))

theorem decStep_eq_add_contrib (INT_BITS n t : ℕ) (poly : SealPlaintext) (val : ℚ)
    (i : ℕ) : decStep INT_BITS n t poly val i = val + decContrib INT_BITS n t poly i := by
  simp only [decStep, decContrib]
  split <;> ring

theorem foldl_add_eq_sum (g : ℚ → ℕ → ℚ) (f : ℕ → ℚ) (hg : ∀ v i, g v i = v + f i) :
    ∀ (N : ℕ) (a : ℚ), (List.range N).foldl g a = a + ∑ i ∈ Finset.range N, f i := by
  intro N
  induction N with
  | zero => simp
  | succ N ih =>
    intro a
    rw [List.range_succ, List.foldl_append, ih, Finset.sum_range_succ]
    simp [hg]
    ring

theorem decodeVal_eq_sum (INT_BITS n t : ℕ) (poly : SealPlaintext) :
    decodeVal INT_BITS n t poly
      = ∑ i ∈ Finset.range (min n poly.length), decContrib INT_BITS n t poly i := by
  unfold decodeVal
  rw [foldl_add_eq_sum _ _ (decStep_eq_add_contrib INT_BITS n t poly)]
  simp

/-- A zero coefficient contributes nothing (for `u64` moduli other than
`2^64 - 1`, whose cutoff wraps to zero). -/
theorem decContrib_of_coeff_zero (INT_BITS n t : ℕ) (poly : SealPlaintext) (i : ℕ)
    (h : poly.getD i 0 = 0) (ht64 : t + 1 < 2 ^ 64) :
    decContrib INT_BITS n t poly i = 0 := by
  unfold decContrib
  rw [h]
  rcases Nat.eq_zero_or_pos ((t + 1) % 2 ^ 64 / 2) with h0 | h0
  · rw [if_neg (by omega)]
    have ht : t = 0 := by omega
    simp [ht]
  · rw [if_pos h0]
    ring

theorem encCoeff_lt (t sign' bit_value : ℕ) (ht : 1 < t) (ht64 : t < 2 ^ 64)
    (hbv : bit_value ≤ 1) : encCoeff t sign' bit_value < t := by
  unfold encCoeff
  split
  · omega
  · split
    · have hbv1 : bit_value = 1 := by omega
      subst hbv1
      push_cast
      rw [Int.emod_eq_of_lt (by omega) (by omega)]
      omega
    · omega

theorem encode_fold_shape (n t : ℕ) (power : ℤ) (sign mantissa : ℕ)
    (ht : 1 < t) (ht64 : t < 2 ^ 64) :
    ∀ (is : List ℕ) (pt : SealPlaintext), pt.length = n → (∀ c ∈ pt, c < t) →
      (is.foldl (encStep n t power sign mantissa) pt).length = n ∧
        ∀ c ∈ is.foldl (encStep n t power sign mantissa) pt, c < t := by
  intro is
  induction is with
  | nil => intro pt h1 h2; exact ⟨h1, h2⟩
  | cons i is ih =>
    intro pt h1 h2
    rw [List.foldl_cons]
    apply ih
    · simpa [encStep] using h1
    · intro c hc
      rcases List.mem_or_eq_of_mem_set hc with h | h
      · exact h2 c h
      · subst h
        exact encCoeff_lt _ _ _ ht ht64 (bitValue_le_one mantissa i)

/-- C5: a successful encoding yields a single Seal plaintext with exactly
`n` coefficients, each `< t`; subnormal and zero inputs yield all zeros. -/
theorem encode_shape (INT_BITS w : ℕ) (params : Params) (pt : Plaintext)
    (ht : 1 < params.plain_modulus) (ht64 : params.plain_modulus < 2 ^ 64)
    (h : tryIntoPlaintext INT_BITS w params = .ok pt) :
    (∃ l : SealPlaintext, pt.inner = .seal [l] ∧
        l.length = params.lattice_dimension ∧ ∀ c ∈ l, c < params.plain_modulus) ∧
      ((isSubnormalBits w ∨ isZeroBits w) →
        pt.inner = .seal [List.replicate params.lattice_dimension 0]) := by
  unfold tryIntoPlaintext at h
  by_cases hn : isNanBits w
  · simp [hn] at h
  rw [if_neg hn] at h
  by_cases hi : isInfiniteBits w
  · simp [hi] at h
  rw [if_neg hi] at h
  by_cases hs : isSubnormalBits w ∨ isZeroBits w
  · rw [if_pos hs] at h
    injection h with h
    subst h
    refine ⟨⟨List.replicate params.lattice_dimension 0, rfl, by simp, ?_⟩, fun _ => rfl⟩
    intro c hc
    rw [List.eq_of_mem_replicate hc]
    omega
  · rw [if_neg hs] at h
    by_cases hr : toI64 INT_BITS < ((expField w : ℤ) - 1023) + 1
    · simp [hr] at h
    · rw [if_neg hr] at h
      injection h with h
      subst h
      have hshape := encode_fold_shape params.lattice_dimension params.plain_modulus
        ((expField w : ℤ) - 1023) (signField w) (mantissaField w ||| (mantissaMask + 1))
        ht ht64 (List.range 53) (List.replicate params.lattice_dimension 0)
        (by simp) (by intro c hc; rw [List.eq_of_mem_replicate hc]; omega)
      exact ⟨⟨_, rfl, hshape.1, hshape.2⟩, fun hcon => absurd hcon hs⟩

/-- C5 witness: encoding `1.0` with `n = 8`, `t = 5` yields the single
8-coefficient plaintext `[1,0,0,0,0,0,0,0]`, all coefficients `< 5`. -/
theorem encode_shape_witness :
    (1 < 5 ∧ 5 < 2 ^ 64 ∧
      tryIntoPlaintext 64 (1023 * 2 ^ 52) ⟨8, 5, [], .bfv, .tc128⟩
        = .ok ⟨.seal [[1, 0, 0, 0, 0, 0, 0, 0]]⟩) ∧
    ((∃ l : SealPlaintext, (Plaintext.mk (.seal [[1, 0, 0, 0, 0, 0, 0, 0]])).inner = .seal [l] ∧
        l.length = 8 ∧ ∀ c ∈ l, c < 5) ∧
      ((isSubnormalBits (1023 * 2 ^ 52) ∨ isZeroBits (1023 * 2 ^ 52)) →
        (Plaintext.mk (.seal [[1, 0, 0, 0, 0, 0, 0, 0]])).inner = .seal [List.replicate 8 0])) :=
  ⟨⟨by norm_num, by norm_num, by decide⟩,
    encode_shape 64 (1023 * 2 ^ 52) ⟨8, 5, [], .bfv, .tc128⟩ ⟨.seal [[1, 0, 0, 0, 0, 0, 0, 0]]⟩
      (by norm_num) (by norm_num) (by decide)⟩

/-- C4 (amended): for `INT_BITS < 2^63` — where the `usize as i64` cast is
value-preserving — encoding fails (with an `FheTypeError`) exactly when the
input is NaN, infinite, or its unbiased binary exponent plus one exceeds
`INT_BITS`. -/
theorem encode_error_iff (INT_BITS w : ℕ) (params : Params) (hB : INT_BITS < 2 ^ 63) :
    (∃ msg, tryIntoPlaintext INT_BITS w params = .error (.fheTypeError msg)) ↔
      (isNanBits w ∨ isInfiniteBits w ∨
        (INT_BITS : ℤ) < ((expField w : ℤ) - 1023) + 1) := by
  unfold tryIntoPlaintext
  by_cases hn : isNanBits w
  · simp [hn]
  rw [if_neg hn]
  by_cases hi : isInfiniteBits w
  · simp [hn, hi]
  rw [if_neg hi]
  by_cases hs : isSubnormalBits w ∨ isZeroBits w
  · have he : expField w = 0 := (subnormal_or_zero_iff w).mp hs
    rw [if_pos hs, he]
    simp only [Nat.cast_zero]
    constructor
    · rintro ⟨msg, hmsg⟩
      exact absurd hmsg (by simp)
    · rintro (h | h | h)
      · exact absurd h hn
      · exact absurd h hi
      · omega
  · rw [if_neg hs, toI64_of_lt hB]
    by_cases hr : (INT_BITS : ℤ) < ((expField w : ℤ) - 1023) + 1
    · rw [if_pos hr]
      simp [hn, hi, hr]
    · rw [if_neg hr]
      simp [hn, hi, hr]

/-- C4 witness: with `INT_BITS = 64` the NaN pattern `0x7FF0000000000001`
fails to encode, matching the error condition. -/
theorem encode_error_iff_witness :
    ((64 : ℕ) < 2 ^ 63) ∧
      ((∃ msg, tryIntoPlaintext 64 (2047 * 2 ^ 52 + 1) ⟨8, 5, [], .bfv, .tc128⟩
          = .error (.fheTypeError msg)) ↔
        (isNanBits (2047 * 2 ^ 52 + 1) ∨ isInfiniteBits (2047 * 2 ^ 52 + 1) ∨
          ((64 : ℕ) : ℤ) < ((expField (2047 * 2 ^ 52 + 1) : ℤ) - 1023) + 1)) :=
  ⟨by norm_num, encode_error_iff 64 (2047 * 2 ^ 52 + 1) ⟨8, 5, [], .bfv, .tc128⟩ (by norm_num)⟩

/-- C4 counterexample: with `INT_BITS = 2^63` (a legal `usize` const
generic) the cast `INT_BITS as i64` wraps to `i64::MIN`, so encoding `1.0`
fails although `1.0` is neither NaN nor infinite and its unbiased exponent
plus one (namely `1`) does not exceed `INT_BITS`. -/
theorem encode_error_counterexample :
    tryIntoPlaintext (2 ^ 63) (1023 * 2 ^ 52) ⟨8, 5, [], .bfv, .tc128⟩
        = .error (.fheTypeError "Out of range") ∧
      ¬ isNanBits (1023 * 2 ^ 52) ∧ ¬ isInfiniteBits (1023 * 2 ^ 52) ∧
      ¬ (((2 ^ 63 : ℕ) : ℤ) < ((expField (1023 * 2 ^ 52) : ℤ) - 1023) + 1) := by
  refine ⟨by decide, by decide, by decide, ?_⟩
  have h : expField (1023 * 2 ^ 52) = 1023 := by decide
  rw [h]
  norm_num

/-- Decoding only reads the first `min n poly_len` coefficients. -/
theorem decodeVal_take (INT_BITS n t : ℕ) (poly : SealPlaintext) :
    decodeVal INT_BITS n t poly = decodeVal INT_BITS n t (poly.take n) := by
  rw [decodeVal_eq_sum, decodeVal_eq_sum]
  have hlen : min n (poly.take n).length = min n poly.length := by
    rw [List.length_take]
    omega
  rw [hlen]
  apply Finset.sum_congr rfl
  intro i hi
  have hi' : i < min n poly.length := Finset.mem_range.mp hi
  unfold decContrib
  have hD : (poly.take n).getD i 0 = poly.getD i 0 := by
    rw [List.getD_eq_getElem _ _ (by rw [List.length_take]; omega),
      List.getD_eq_getElem _ _ (by omega)]
    exact List.getElem_take _
  rw [hD]

/-- Appending zero coefficients (within the lattice dimension) does not
change the decoded value, for `u64` moduli below `2^64 - 1`. -/
theorem decodeVal_append_zeros (INT_BITS n t : ℕ) (poly : SealPlaintext) (k : ℕ)
    (ht64 : t + 1 < 2 ^ 64) (hlen : poly.length + k ≤ n) :
    decodeVal INT_BITS n t poly = decodeVal INT_BITS n t (poly ++ List.replicate k 0) := by
  induction k with
  | zero => simp
  | succ k ih =>
    rw [ih (by omega)]
    have hrep : (List.replicate (k + 1) 0 : List ℕ) = List.replicate k 0 ++ [0] := by
      rw [← List.replicate_succ']
    rw [hrep, ← List.append_assoc]
    set l := poly ++ List.replicate k 0 with hl
    have hllen : l.length = poly.length + k := by simp [hl]
    rw [decodeVal_eq_sum, decodeVal_eq_sum]
    have h1 : min n l.length = l.length := by omega
    have h2 : min n (l ++ [0]).length = l.length + 1 := by
      simp only [List.length_append, List.length_singleton]
      omega
    rw [h1, h2, Finset.sum_range_succ]
    have hzero : decContrib INT_BITS n t (l ++ [0]) l.length = 0 := by
      apply decContrib_of_coeff_zero _ _ _ _ _ _ ht64
      rw [List.getD_eq_getElem?_getD, List.getElem?_append_right (le_refl _)]
      simp
    rw [hzero, add_zero]
    apply Finset.sum_congr rfl
    intro i hi
    have hi' : i < l.length := Finset.mem_range.mp hi
    unfold decContrib
    rw [List.getD_eq_getElem?_getD, List.getD_eq_getElem?_getD,
      List.getElem?_append_left hi']

/-- C6: decoding fails with `IncorrectCiphertextCount` exactly when the
inner Seal vector's length differs from 1; decoding reads only the first
`min(n, poly_len)` coefficients, so (for `u64` moduli below `2^64 - 1`) a
coefficient vector shorter than `n` decodes as if zero-padded. -/
theorem decode_count_and_missing (INT_BITS : ℕ) (params : Params) (p : List SealPlaintext) :
    (tryFromPlaintext INT_BITS ⟨.seal p⟩ params = .error .incorrectCiphertextCount ↔
        p.length ≠ 1) ∧
      (∀ poly : SealPlaintext,
        tryFromPlaintext INT_BITS ⟨.seal [poly]⟩ params
          = tryFromPlaintext INT_BITS ⟨.seal [poly.take params.lattice_dimension]⟩ params) ∧
      (∀ (poly : SealPlaintext) (k : ℕ), params.plain_modulus + 1 < 2 ^ 64 →
        poly.length + k ≤ params.lattice_dimension →
        tryFromPlaintext INT_BITS ⟨.seal [poly]⟩ params
          = tryFromPlaintext INT_BITS ⟨.seal [poly ++ List.replicate k 0]⟩ params) := by
  refine ⟨?_, ?_, ?_⟩
  · simp only [tryFromPlaintext]
    by_cases h : p.length = 1
    · rw [if_neg (by omega)]
      simp [h]
    · rw [if_pos (by omega)]
      simp [h]
  · intro poly
    simp only [tryFromPlaintext]
    simp only [List.length_singleton, List.headI]
    rw [decodeVal_take]
  · intro poly k ht64 hlen
    simp only [tryFromPlaintext]
    simp only [List.length_singleton, List.headI]
    rw [decodeVal_append_zeros INT_BITS _ _ poly k ht64 hlen]

/-- C6 witness: a two-element Seal vector is rejected, a singleton is not;
`[3,1]` decodes the same as its zero-padding `[3,1,0,0,0]` at `n = 5`. -/
theorem decode_count_and_missing_witness :
    ((tryFromPlaintext 64 ⟨.seal [[1], [2]]⟩ ⟨5, 7, [], .bfv, .tc128⟩
        = .error .incorrectCiphertextCount ↔ ([[1], [2]] : List SealPlaintext).length ≠ 1) ∧
      (∀ poly : SealPlaintext,
        tryFromPlaintext 64 ⟨.seal [poly]⟩ ⟨5, 7, [], .bfv, .tc128⟩
          = tryFromPlaintext 64 ⟨.seal [poly.take 5]⟩ ⟨5, 7, [], .bfv, .tc128⟩) ∧
      (∀ (poly : SealPlaintext) (k : ℕ), (7 : ℕ) + 1 < 2 ^ 64 →
        poly.length + k ≤ 5 →
        tryFromPlaintext 64 ⟨.seal [poly]⟩ ⟨5, 7, [], .bfv, .tc128⟩
          = tryFromPlaintext 64 ⟨.seal [poly ++ List.replicate k 0]⟩ ⟨5, 7, [], .bfv, .tc128⟩)) ∧
    ((3 : ℕ) + 2 ≤ 5) :=
  ⟨decode_count_and_missing 64 ⟨5, 7, [], .bfv, .tc128⟩ [[1], [2]], by norm_num⟩

/-- C10: decoding any single Seal plaintext always succeeds, whatever the
coefficients (garbled data decodes silently to a numeric value). -/
theorem decode_total (INT_BITS : ℕ) (params : Params) (p : List SealPlaintext)
    (h : p.length = 1) :
    ∃ v : Fractional, tryFromPlaintext INT_BITS ⟨.seal p⟩ params = .ok v := by
  simp only [tryFromPlaintext]
  rw [if_neg (by omega)]
  exact ⟨_, rfl⟩

/-- C10 witness: a coefficient vector longer than `n = 1` whose entries
exceed the plain modulus `3` still decodes to a value. -/
theorem decode_total_witness :
    (([[5, 9]] : List SealPlaintext).length = 1) ∧
      ∃ v : Fractional, tryFromPlaintext 64 ⟨.seal [[5, 9]]⟩ ⟨1, 3, [], .bfv, .tc128⟩ = .ok v :=
  ⟨rfl, decode_total 64 ⟨1, 3, [], .bfv, .tc128⟩ [[5, 9]] rfl⟩

/-- C2 (amended): for `1 < t` with `t + 1 < 2^64` and a coefficient
`c ≤ t`, the decoder treats `c` as positive with magnitude `c` exactly when
`c < ⌊(t+1)/2⌋` (floor division, as the `u64` expression
`(plain_modulus + 1) / 2` computes), and otherwise as negative with
magnitude `t - c`. -/
theorem decode_classification (t c : ℕ) (ht : 1 < t) (ht64 : t + 1 < 2 ^ 64)
    (hc : c ≤ t) (INT_BITS n i : ℕ) (poly : SealPlaintext) (val : ℚ)
    (hcoeff : poly.getD i 0 = c) :
    decStep INT_BITS n t poly val i =
      val + (if 0 ≤ dPower INT_BITS n i then 1 else -1)
        * (if c < (t + 1) / 2 then (c : ℚ) else -((t - c : ℕ) : ℚ))
        * (2 : ℚ) ^ dPower INT_BITS n i := by
  simp only [decStep]
  rw [hcoeff, Nat.mod_eq_of_lt ht64]
  by_cases hlt : c < (t + 1) / 2
  · rw [if_pos hlt, if_pos hlt]
  · rw [if_neg hlt, if_neg hlt]
    have h1 : ((t : ℤ) - (c : ℤ)) % 2 ^ 64 = (t : ℤ) - c :=
      Int.emod_eq_of_lt (by omega) (by omega)
    rw [h1]
    have h2 : ((t : ℤ) - (c : ℤ)).toNat = t - c := by omega
    rw [h2]
    ring

/-- C2 witness: at `t = 10`, `c = 5` the cutoff is `⌊11/2⌋ = 5`, so the
coefficient `5` is classified negative with magnitude `10 - 5 = 5`. -/
theorem decode_classification_witness :
    ((1 : ℕ) < 10 ∧ (10 : ℕ) + 1 < 2 ^ 64 ∧ (5 : ℕ) ≤ 10 ∧
      ([5] : SealPlaintext).getD 0 0 = 5) ∧
      decStep 1 3 10 [5] 0 0 =
        0 + (if 0 ≤ dPower 1 3 0 then 1 else -1)
          * (if 5 < (10 + 1) / 2 then ((5 : ℕ) : ℚ) else -((10 - 5 : ℕ) : ℚ))
          * (2 : ℚ) ^ dPower 1 3 0 :=
  ⟨⟨by norm_num, by norm_num, by norm_num, rfl⟩,
    decode_classification 10 5 (by norm_num) (by norm_num) (by norm_num) 1 3 0 [5] 0 rfl⟩

/-- C2 counterexample: with `t = 1_000_000` and coefficient `c = 500_000`,
the code's cutoff `(t+1)/2 = 500_000` (floor) classifies `c` as negative
(the value decodes to `-500000`), while `c < ⌈(t+1)/2⌉ = 500_001` would
classify it as positive with value `+500000`. -/
theorem decode_cutoff_counterexample :
    tryFromPlaintext 64 ⟨.seal [[500000]]⟩ ⟨4096, 1000000, [], .bfv, .tc128⟩
        = .ok ⟨-500000⟩ ∧
      ((500000 : ℤ) < Int.ceil (((1000000 : ℚ) + 1) / 2)) ∧
      (-500000 : ℚ) ≠ 500000 := by
  refine ⟨?_, ?_, by norm_num⟩
  · simp only [tryFromPlaintext]
    rw [if_neg (by simp)]
    have h : decodeVal 64 4096 1000000 [500000] = -500000 := by
      rw [decodeVal_eq_sum]
      have hmin : min 4096 ([500000] : SealPlaintext).length = 1 := by simp
      rw [hmin, Finset.sum_range_one]
      unfold decContrib dPower
      norm_num
      rw [show Int.toNat 500000 = 500000 from rfl]
      norm_num
    simp [List.headI, h]
  · have h : Int.ceil (((1000000 : ℚ) + 1) / 2) = 500001 :=
      Int.ceil_eq_iff.mpr (by norm_num)
    rw [h]
    norm_num

/-! ## Helper lemmas for the round-trip theorem -/

theorem signField_le_one (w : ℕ) : signField w ≤ 1 := by
  rw [signField, signMask, Nat.shiftRight_eq_div_pow]
  calc (w &&& 1 <<< 63) / 2 ^ 63 ≤ (1 <<< 63) / 2 ^ 63 :=
        Nat.div_le_div_right Nat.and_le_right
    _ = 1 := by
        rw [Nat.one_shiftLeft]
        exact Nat.div_self (Nat.pos_pow_of_pos 63 (by norm_num))

theorem mantissaField_lt (w : ℕ) : mantissaField w < 2 ^ 52 := by
  have h : mantissaField w ≤ mantissaMask := Nat.and_le_right
  rw [mantissaMask] at h
  omega

theorem lor_two_pow {m k : ℕ} (h : m < 2 ^ k) : m ||| 2 ^ k = m + 2 ^ k := by
  apply Nat.eq_of_testBit_eq
  intro i
  rw [Nat.testBit_lor]
  rcases lt_trichotomy i k with hik | hik | hik
  · rw [Nat.testBit_two_pow_of_ne (by omega), Bool.or_false]
    rw [Nat.testBit_to_div_mod, Nat.testBit_to_div_mod]
    have h2 : (2 : ℕ) ^ k = 2 ^ (k - i) * 2 ^ i := by
      rw [← pow_add]
      congr 1
      omega
    have hdiv : (m + 2 ^ k) / 2 ^ i = m / 2 ^ i + 2 ^ (k - i) := by
      rw [h2, Nat.add_mul_div_right _ _ (Nat.pos_pow_of_pos i (by norm_num))]
    rw [hdiv]
    obtain ⟨b, hb⟩ : ∃ b, (2 : ℕ) ^ (k - i) = 2 * b :=
      ⟨2 ^ (k - i - 1), by rw [← pow_succ']; congr 1; omega⟩
    rw [hb]
    have hmod : (m / 2 ^ i + 2 * b) % 2 = m / 2 ^ i % 2 := by omega
    rw [hmod]
  · subst hik
    rw [Nat.testBit_two_pow_self, Bool.or_true]
    rw [Nat.testBit_to_div_mod]
    have h1 : (m + 2 ^ i) / 2 ^ i = 1 := by
      rw [Nat.add_div_right _ (Nat.pos_pow_of_pos i (by norm_num)),
        Nat.div_eq_of_lt h]
    rw [h1]
    rfl
  · have h2ki : (2 : ℕ) ^ k < 2 ^ i := Nat.pow_lt_pow_right (by norm_num) hik
    have h2k1 : (2 : ℕ) ^ (k + 1) ≤ 2 ^ i := Nat.pow_le_pow_right (by norm_num) (by omega)
    rw [Nat.testBit_two_pow_of_ne (by omega),
      Nat.testBit_lt_two_pow (by omega),
      Nat.testBit_lt_two_pow (by rw [pow_succ] at h2k1; omega)]
    rfl

theorem encBitValue_eq_div_mod (m i : ℕ) : encBitValue m i = m / 2 ^ i % 2 := by
  rw [encBitValue, Nat.one_shiftLeft, Nat.and_two_pow, Nat.shiftRight_eq_div_pow,
    Nat.mul_div_cancel _ (Nat.pos_pow_of_pos i (by norm_num)),
    Nat.testBit_to_div_mod]
  rcases Nat.mod_two_eq_zero_or_one (m / 2 ^ i) with h | h <;> rw [h] <;> rfl

theorem sum_bits (k m : ℕ) :
    ∑ i ∈ Finset.range k, (m / 2 ^ i % 2) * 2 ^ i = m % 2 ^ k := by
  induction k with
  | zero => simp [Nat.mod_one]
  | succ k ih =>
    rw [Finset.sum_range_succ, ih, Nat.mod_pow_succ]
    ring

theorem getD_set_ne (l : List ℕ) (a j v : ℕ) (h : a ≠ j) :
    (l.set a v).getD j 0 = l.getD j 0 := by
  rw [List.getD_eq_getD_get?, List.getD_eq_getD_get?, List.get?_eq_getElem?,
    List.get?_eq_getElem?, List.getElem?_set_ne h]

theorem getD_set_self (l : List ℕ) (a v : ℕ) (h : a < l.length) :
    (l.set a v).getD a 0 = v := by
  rw [List.getD_eq_getElem _ _ (by simpa using h)]
  simp

theorem getD_replicate_zero (n j : ℕ) : (List.replicate n (0 : ℕ)).getD j 0 = 0 := by
  rcases Nat.lt_or_ge j n with h | h
  · rw [List.getD_eq_getElem _ _ (by simpa using h)]
    exact List.getElem_replicate _ _
  · exact List.getD_eq_default _ _ (by simpa using h)

theorem foldl_set_length (f g : ℕ → ℕ) :
    ∀ (is : List ℕ) (l0 : List ℕ),
      (is.foldl (fun pt i => pt.set (f i) (g i)) l0).length = l0.length := by
  intro is
  induction is with
  | nil => intro l0; rfl
  | cons a as ih =>
    intro l0
    rw [List.foldl_cons, ih]
    simp

theorem foldl_set_getD_miss (f g : ℕ → ℕ) (j : ℕ) :
    ∀ (is : List ℕ), (∀ i ∈ is, f i ≠ j) → ∀ l0 : List ℕ,
      (is.foldl (fun pt i => pt.set (f i) (g i)) l0).getD j 0 = l0.getD j 0 := by
  intro is
  induction is with
  | nil => intro _ l0; rfl
  | cons a as ih =>
    intro h l0
    rw [List.foldl_cons, ih (fun i hi => h i (List.mem_cons_of_mem a hi)),
      getD_set_ne _ _ _ _ (h a (List.mem_cons_self a as))]

theorem foldl_set_getD_hit (f g : ℕ → ℕ) (N : ℕ) (i0 : ℕ) (l0 : List ℕ)
    (hi0 : i0 < N) (hlen : f i0 < l0.length)
    (hinj : ∀ i, i < N → f i = f i0 → i = i0) :
    ((List.range N).foldl (fun pt i => pt.set (f i) (g i)) l0).getD (f i0) 0 = g i0 := by
  induction N with
  | zero => omega
  | succ N ih =>
    rw [List.range_succ, List.foldl_append, List.foldl_cons, List.foldl_nil]
    by_cases hN : i0 = N
    · subst hN
      exact getD_set_self _ _ _ (by rw [foldl_set_length]; exact hlen)
    · have hne : f N ≠ f i0 := fun hEq => hN (hinj N (by omega) hEq).symm
      rw [getD_set_ne _ _ _ _ hne]
      exact ih (by omega) (fun i hi hf => hinj i (by omega) hf)

theorem encStep_eq_set (n t : ℕ) (power : ℤ) (sign mantissa : ℕ) :
    encStep n t power sign mantissa
      = fun pt i => pt.set (encIdx n power i) (encVal t power sign mantissa i) := rfl

theorem encBitPower_eq (power : ℤ) (i : ℕ) (hi : i < 53) :
    encBitPower power i = power - 52 + i := by
  rw [encBitPower]
  omega

theorem encIdx_intSpec (n : ℕ) (power : ℤ) (i : ℕ) (hn64 : n < 2 ^ 64)
    (hlow : 0 ≤ (n : ℤ) + (power - 52)) :
    ((encIdx n power i : ℕ) : ℤ)
      = if 0 ≤ encBitPower power i then encBitPower power i
        else (n : ℤ) + encBitPower power i := by
  have hbp_ge : power - 52 ≤ encBitPower power i := by rw [encBitPower]; omega
  rw [encIdx, encCoeffIndex]
  by_cases hbp : 0 ≤ encBitPower power i
  · rw [if_pos hbp, if_pos hbp, Int.toNat_of_nonneg hbp]
  · rw [if_neg hbp, if_neg hbp]
    have hmod : ((n : ℤ) + encBitPower power i) % 2 ^ 64
        = (n : ℤ) + encBitPower power i :=
      Int.emod_eq_of_lt (by omega) (by omega)
    rw [hmod, Int.toNat_of_nonneg (by omega)]

theorem encIdx_lt (B n : ℕ) (power : ℤ) (i : ℕ) (hi : i < 53) (hn64 : n < 2 ^ 64)
    (hpB : power + 1 ≤ (B : ℤ)) (hB : 53 + B ≤ n)
    (hlow : (B : ℤ) ≤ (n : ℤ) + power - 52) :
    encIdx n power i < n := by
  have hspec := encIdx_intSpec n power i hn64 (by omega)
  have hbp_ge : power - 52 ≤ encBitPower power i := by rw [encBitPower]; omega
  have hbp_le : encBitPower power i ≤ power := by rw [encBitPower]; omega
  by_cases hbp : 0 ≤ encBitPower power i
  · rw [if_pos hbp] at hspec
    omega
  · rw [if_neg hbp] at hspec
    omega

theorem encIdx_inj (B n : ℕ) (power : ℤ) (i i' : ℕ) (hi : i < 53) (hi' : i' < 53)
    (hn64 : n < 2 ^ 64) (hpB : power + 1 ≤ (B : ℤ)) (hB : 53 + B ≤ n)
    (hlow : (B : ℤ) ≤ (n : ℤ) + power - 52)
    (heq : encIdx n power i = encIdx n power i') : i = i' := by
  have h1 := encIdx_intSpec n power i hn64 (by omega)
  have h2 := encIdx_intSpec n power i' hn64 (by omega)
  rw [encBitPower_eq power i hi] at h1
  rw [encBitPower_eq power i' hi'] at h2
  have heqz : ((encIdx n power i : ℕ) : ℤ) = ((encIdx n power i' : ℕ) : ℤ) := by
    exact_mod_cast heq
  by_cases hb1 : 0 ≤ power - 52 + i
  · rw [if_pos hb1] at h1
    by_cases hb2 : 0 ≤ power - 52 + i'
    · rw [if_pos hb2] at h2
      omega
    · rw [if_neg hb2] at h2
      omega
  · rw [if_neg hb1] at h1
    by_cases hb2 : 0 ≤ power - 52 + i'
    · rw [if_pos hb2] at h2
      omega
    · rw [if_neg hb2] at h2
      omega

/-- The decoder's contribution at the coefficient index written by encoding
iteration `i0` is exactly the signed value of mantissa bit `i0`. -/
theorem decContrib_enc (B n t : ℕ) (power : ℤ) (s mant : ℕ) (L : SealPlaintext)
    (ht : 2 < t) (ht64 : t + 1 < 2 ^ 64) (hn64 : n < 2 ^ 64) (hs : s ≤ 1)
    (hpB : power + 1 ≤ (B : ℤ)) (hB : 53 + B ≤ n)
    (hlow : (B : ℤ) ≤ (n : ℤ) + power - 52)
    (i0 : ℕ) (hi0 : i0 < 53)
    (hc : L.getD (encIdx n power i0) 0 = encVal t power s mant i0) :
    decContrib B n t L (encIdx n power i0)
      = (if s = 0 then (1 : ℚ) else -1) * (encBitValue mant i0 : ℚ)
          * (2 : ℚ) ^ (power - 52 + (i0 : ℤ)) := by
  have hspec := encIdx_intSpec n power i0 hn64 (by omega)
  have hbp_eq := encBitPower_eq power i0 hi0
  rw [hbp_eq] at hspec
  have hcut1 : (t + 1) % 2 ^ 64 = t + 1 := Nat.mod_eq_of_lt (by omega)
  have hcut2 : 1 < (t + 1) / 2 := by omega
  have hcut3 : ¬(t - 1 < (t + 1) / 2) := by omega
  have hbv := bitValue_le_one mant i0
  have hco1 : (((t : ℤ) - ((1 : ℕ) : ℤ)) % 2 ^ 64).toNat = t - 1 := by
    push_cast
    rw [Int.emod_eq_of_lt (by omega) (by omega)]
    omega
  have hco2 : (((t : ℤ) - ((t - 1 : ℕ) : ℤ)) % 2 ^ 64).toNat = 1 := by
    have h1 : ((t - 1 : ℕ) : ℤ) = (t : ℤ) - 1 := by omega
    rw [h1]
    norm_num
  simp only [decContrib]
  rw [hc, hcut1]
  by_cases hbp : 0 ≤ encBitPower power i0
  · have hbpz : (0 : ℤ) ≤ power - 52 + i0 := by rw [← hbp_eq]; exact hbp
    have hidx : ((encIdx n power i0 : ℕ) : ℤ) = power - 52 + i0 := by
      rw [hspec, if_pos hbpz]
    have hlt : encIdx n power i0 < B := by omega
    have hdp : dPower B n (encIdx n power i0) = power - 52 + i0 := by
      rw [dPower, if_pos hlt, hidx]
    have hsgn' : encSign s (encBitPower power i0) = s := by
      rw [encSign, if_pos hbp]
    rw [hdp, if_pos hbpz]
    by_cases hs0 : s = 0
    · subst hs0
      by_cases hb : encBitValue mant i0 = 0
      · have hval : encVal t power 0 mant i0 = 0 := by
          rw [encVal, hsgn', encCoeff, if_pos rfl, hb]
        rw [hval, if_pos (show (0 : ℕ) < (t + 1) / 2 by omega), hb,
          if_pos (show (0 : ℕ) = 0 from rfl)]
      · have hb1 : encBitValue mant i0 = 1 := by omega
        have hval : encVal t power 0 mant i0 = 1 := by
          rw [encVal, hsgn', encCoeff, if_pos rfl, hb1]
        rw [hval, if_pos (show (1 : ℕ) < (t + 1) / 2 by omega), hb1,
          if_pos (show (0 : ℕ) = 0 from rfl)]
    · have hs1 : s = 1 := by omega
      subst hs1
      by_cases hb : encBitValue mant i0 = 0
      · have hval : encVal t power 1 mant i0 = 0 := by
          rw [encVal, hsgn', encCoeff, if_neg (show ¬(1 : ℕ) = 0 by norm_num),
            hb, if_neg (by norm_num)]
        rw [hval, if_pos (show (0 : ℕ) < (t + 1) / 2 by omega), hb,
          if_neg (show ¬(1 : ℕ) = 0 by norm_num)]
        norm_num
      · have hb1 : encBitValue mant i0 = 1 := by omega
        have hval : encVal t power 1 mant i0 = t - 1 := by
          rw [encVal, hsgn', encCoeff, if_neg (show ¬(1 : ℕ) = 0 by norm_num),
            hb1, if_pos (by norm_num), hco1]
        rw [hval, if_neg hcut3, hco2, hb1,
          if_neg (show ¬(1 : ℕ) = 0 by norm_num)]
        norm_num
  · have hbpz : ¬ ((0 : ℤ) ≤ power - 52 + i0) := by rw [← hbp_eq]; exact hbp
    have hidx : ((encIdx n power i0 : ℕ) : ℤ) = (n : ℤ) + (power - 52 + i0) := by
      rw [hspec, if_neg hbpz]
    have hge : ¬ (encIdx n power i0 < B) := by omega
    have hdp : dPower B n (encIdx n power i0) = power - 52 + i0 := by
      rw [dPower, if_neg hge, hidx]
      ring
    have hsgn' : encSign s (encBitPower power i0) = (s ^^^ (2 ^ 64 - 1)) &&& 1 := by
      rw [encSign, if_neg hbp]
    rw [hdp, if_neg hbpz]
    by_cases hs0 : s = 0
    · subst hs0
      have hx : encSign 0 (encBitPower power i0) = 1 := by
        rw [hsgn']
        decide
      by_cases hb : encBitValue mant i0 = 0
      · have hval : encVal t power 0 mant i0 = 0 := by
          rw [encVal, hx, encCoeff, if_neg (show ¬(1 : ℕ) = 0 by norm_num),
            hb, if_neg (by norm_num)]
        rw [hval, if_pos (show (0 : ℕ) < (t + 1) / 2 by omega), hb,
          if_pos (show (0 : ℕ) = 0 from rfl)]
        norm_num
      · have hb1 : encBitValue mant i0 = 1 := by omega
        have hval : encVal t power 0 mant i0 = t - 1 := by
          rw [encVal, hx, encCoeff, if_neg (show ¬(1 : ℕ) = 0 by norm_num),
            hb1, if_pos (by norm_num), hco1]
        rw [hval, if_neg hcut3, hco2, hb1,
          if_pos (show (0 : ℕ) = 0 from rfl)]
        norm_num
    · have hs1 : s = 1 := by omega
      subst hs1
      have hx : encSign 1 (encBitPower power i0) = 0 := by
        rw [hsgn']
        decide
      by_cases hb : encBitValue mant i0 = 0
      · have hval : encVal t power 1 mant i0 = 0 := by
          rw [encVal, hx, encCoeff, if_pos rfl, hb]
        rw [hval, if_pos (show (0 : ℕ) < (t + 1) / 2 by omega), hb,
          if_neg (show ¬(1 : ℕ) = 0 by norm_num)]
      · have hb1 : encBitValue mant i0 = 1 := by omega
        have hval : encVal t power 1 mant i0 = 1 := by
          rw [encVal, hx, encCoeff, if_pos rfl, hb1]
        rw [hval, if_pos (show (1 : ℕ) < (t + 1) / 2 by omega), hb1,
          if_neg (show ¬(1 : ℕ) = 0 by norm_num)]

theorem floatValQ_normal (w : ℕ) (h : expField w ≠ 0) :
    floatValQ w = (if signField w = 0 then (1 : ℚ) else -1)
      * ((2 ^ 52 + mantissaField w : ℕ) : ℚ)
      * (2 : ℚ) ^ ((expField w : ℤ) - 1075) := by
  rw [floatValQ]
  simp only [if_neg h]

/-- C1 (amended): round-trip of the `Fractional` codec.  For every normal
double (bit pattern `w` with biased exponent in `[1, 2046]`) whose unbiased
exponent `p` satisfies `p + 1 ≤ INT_BITS` and — the amendment — additionally
`INT_BITS ≤ n + p - 52` (so that fractional digits do not land in the
integer region or out of range; automatic for `n = 4096`, `t = 10^6`,
`INT_BITS = 64`), with `n ≥ 53 + INT_BITS`, `t > 2` and the `u64`/`usize`
domain bounds, decoding the encoding returns exactly the value of `w`. -/
theorem fractional_roundtrip (INT_BITS w : ℕ) (params : Params)
    (he1 : 1 ≤ expField w) (he2 : expField w ≤ 2046)
    (hpB : ((expField w : ℤ) - 1023) + 1 ≤ (INT_BITS : ℤ))
    (hB63 : INT_BITS < 2 ^ 63)
    (hn : 53 + INT_BITS ≤ params.lattice_dimension)
    (hn64 : params.lattice_dimension < 2 ^ 64)
    (ht : 2 < params.plain_modulus)
    (ht64 : params.plain_modulus + 1 < 2 ^ 64)
    (hlow : (INT_BITS : ℤ)
      ≤ (params.lattice_dimension : ℤ) + ((expField w : ℤ) - 1023) - 52) :
    (tryIntoPlaintext INT_BITS w params).bind
        (fun pt => tryFromPlaintext INT_BITS pt params)
      = .ok ⟨floatValQ w⟩ := by
  have hnan : ¬ isNanBits w := fun h => by
    have := h.1
    omega
  have hinf : ¬ isInfiniteBits w := fun h => by
    have := h.1
    omega
  have hsub : ¬ (isSubnormalBits w ∨ isZeroBits w) := by
    rw [subnormal_or_zero_iff]
    omega
  have hrange : ¬ (toI64 INT_BITS < ((expField w : ℤ) - 1023) + 1) := by
    rw [toI64_of_lt hB63]
    omega
  simp only [tryIntoPlaintext]
  rw [if_neg hnan, if_neg hinf, if_neg hsub, if_neg hrange]
  simp only [Except.bind, tryFromPlaintext]
  rw [List.length_singleton, if_neg (by norm_num : ¬ (1 : ℕ) ≠ 1)]
  simp only [List.headI]
  set n := params.lattice_dimension with hn_def
  set t := params.plain_modulus with ht_def
  set power : ℤ := (expField w : ℤ) - 1023 with hpower
  set s := signField w with hs_def
  set mant := mantissaField w ||| (mantissaMask + 1) with hmant_def
  have hm52 : mantissaField w < 2 ^ 52 := mantissaField_lt w
  have hmant_eq : mant = mantissaField w + 2 ^ 52 := by
    rw [hmant_def, show mantissaMask + 1 = 2 ^ 52 by rw [mantissaMask]; norm_num]
    exact lor_two_pow hm52
  have hmant_lt : mant < 2 ^ 53 := by omega
  rw [encStep_eq_set]
  set L := (List.range 53).foldl
    (fun pt i => pt.set (encIdx n power i) (encVal t power s mant i))
    (List.replicate n 0) with hL_def
  have hLlen : L.length = n := by
    rw [hL_def, foldl_set_length]
    simp
  have hHit : ∀ i0, i0 < 53 → L.getD (encIdx n power i0) 0 = encVal t power s mant i0 := by
    intro i0 hi0
    rw [hL_def]
    apply foldl_set_getD_hit _ _ 53 i0 _ hi0
    · rw [List.length_replicate]
      exact encIdx_lt INT_BITS n power i0 hi0 hn64 hpB hn hlow
    · intro i hi hf
      exact encIdx_inj INT_BITS n power i i0 hi hi0 hn64 hpB hn hlow hf
  have hMiss : ∀ j, (∀ i, i < 53 → encIdx n power i ≠ j) → L.getD j 0 = 0 := by
    intro j hj
    rw [hL_def, foldl_set_getD_miss _ _ j _ (fun i hi => hj i (List.mem_range.mp hi)),
      getD_replicate_zero]
  have hdec : decodeVal INT_BITS n t L = floatValQ w := by
    rw [decodeVal_eq_sum, hLlen, min_self]
    have hstep1 : ∑ j ∈ Finset.range n, decContrib INT_BITS n t L j
        = ∑ j ∈ Finset.range n,
            ∑ i ∈ (Finset.range 53).filter (fun i => encIdx n power i = j),
              (if s = 0 then (1 : ℚ) else -1) * (encBitValue mant i : ℚ)
                * (2 : ℚ) ^ (power - 52 + (i : ℤ)) := by
      apply Finset.sum_congr rfl
      intro j hj
      by_cases hex : ∃ i, i < 53 ∧ encIdx n power i = j
      · obtain ⟨i0, hi0, hio⟩ := hex
        have hfilter : (Finset.range 53).filter (fun i => encIdx n power i = j) = {i0} := by
          ext x
          simp only [Finset.mem_filter, Finset.mem_range, Finset.mem_singleton]
          constructor
          · rintro ⟨hx, hxe⟩
            exact encIdx_inj INT_BITS n power x i0 hx hi0 hn64 hpB hn hlow
              (by rw [hxe, hio])
          · rintro rfl
            exact ⟨hi0, hio⟩
        rw [hfilter, Finset.sum_singleton, ← hio]
        exact decContrib_enc INT_BITS n t power s mant L ht ht64 hn64
          (signField_le_one w) hpB hn hlow i0 hi0 (hHit i0 hi0)
      · push_neg at hex
        have hfilter : (Finset.range 53).filter (fun i => encIdx n power i = j) = ∅ := by
          ext x
          simp only [Finset.mem_filter, Finset.mem_range, Finset.not_mem_empty,
            iff_false, not_and]
          intro hx
          exact hex x hx
        rw [hfilter, Finset.sum_empty]
        exact decContrib_of_coeff_zero _ _ _ _ _ (hMiss j (fun i hi => hex i hi)) ht64
    have hstep2 : ∑ j ∈ Finset.range n,
          ∑ i ∈ (Finset.range 53).filter (fun i => encIdx n power i = j),
            (if s = 0 then (1 : ℚ) else -1) * (encBitValue mant i : ℚ)
              * (2 : ℚ) ^ (power - 52 + (i : ℤ))
        = ∑ i ∈ Finset.range 53,
            (if s = 0 then (1 : ℚ) else -1) * (encBitValue mant i : ℚ)
              * (2 : ℚ) ^ (power - 52 + (i : ℤ)) := by
      apply Finset.sum_fiberwise_of_maps_to
      intro i hi
      rw [Finset.mem_range] at hi ⊢
      exact encIdx_lt INT_BITS n power i hi hn64 hpB hn hlow
    have hstep3 : ∑ i ∈ Finset.range 53,
          (if s = 0 then (1 : ℚ) else -1) * (encBitValue mant i : ℚ)
            * (2 : ℚ) ^ (power - 52 + (i : ℤ))
        = (if s = 0 then (1 : ℚ) else -1) * (mant : ℚ) * (2 : ℚ) ^ (power - 52) := by
      have hterm : ∀ i ∈ Finset.range 53,
          (if s = 0 then (1 : ℚ) else -1) * (encBitValue mant i : ℚ)
              * (2 : ℚ) ^ (power - 52 + (i : ℤ))
            = (if s = 0 then (1 : ℚ) else -1) * (2 : ℚ) ^ (power - 52)
                * ((encBitValue mant i * 2 ^ i : ℕ) : ℚ) := by
        intro i _
        rw [zpow_add₀ (by norm_num : (2 : ℚ) ≠ 0), zpow_natCast]
        push_cast
        ring
      rw [Finset.sum_congr rfl hterm, ← Finset.mul_sum, ← Nat.cast_sum]
      have hbits : ∑ i ∈ Finset.range 53, encBitValue mant i * 2 ^ i = mant := by
        have h1 : ∀ i ∈ Finset.range 53, encBitValue mant i * 2 ^ i
            = mant / 2 ^ i % 2 * 2 ^ i := by
          intro i _
          rw [encBitValue_eq_div_mod]
        rw [Finset.sum_congr rfl h1, sum_bits, Nat.mod_eq_of_lt hmant_lt]
      rw [hbits]
      ring
    rw [hstep1, hstep2, hstep3]
    rw [floatValQ_normal w (by omega)]
    have hexp : power - 52 = (expField w : ℤ) - 1075 := by
      rw [hpower]
      ring
    rw [hexp, hmant_eq]
    have hcast : ((mantissaField w + 2 ^ 52 : ℕ) : ℚ) = ((2 ^ 52 + mantissaField w : ℕ) : ℚ) := by
      push_cast
      ring
    rw [hcast]
  rw [hdec]

/-- C1 witness: `5.8125` (pattern `1025·2^52 + 2^50 + 2^49 + 2^48 + 2^46`)
round-trips exactly under `n = 4096`, `t = 1_000_000`, `INT_BITS = 64`. -/
theorem fractional_roundtrip_witness :
    (1 ≤ expField (1025 * 2 ^ 52 + (2 ^ 50 + 2 ^ 49 + 2 ^ 48 + 2 ^ 46)) ∧
      expField (1025 * 2 ^ 52 + (2 ^ 50 + 2 ^ 49 + 2 ^ 48 + 2 ^ 46)) ≤ 2046 ∧
      ((expField (1025 * 2 ^ 52 + (2 ^ 50 + 2 ^ 49 + 2 ^ 48 + 2 ^ 46)) : ℤ) - 1023) + 1
        ≤ ((64 : ℕ) : ℤ) ∧
      (64 : ℕ) < 2 ^ 63 ∧ 53 + 64 ≤ (4096 : ℕ) ∧ (4096 : ℕ) < 2 ^ 64 ∧
      (2 : ℕ) < 1000000 ∧ (1000000 : ℕ) + 1 < 2 ^ 64 ∧
      ((64 : ℕ) : ℤ) ≤ ((4096 : ℕ) : ℤ)
        + ((expField (1025 * 2 ^ 52 + (2 ^ 50 + 2 ^ 49 + 2 ^ 48 + 2 ^ 46)) : ℤ) - 1023) - 52) ∧
    (tryIntoPlaintext 64 (1025 * 2 ^ 52 + (2 ^ 50 + 2 ^ 49 + 2 ^ 48 + 2 ^ 46))
          ⟨4096, 1000000, [], .bfv, .tc128⟩).bind
        (fun pt => tryFromPlaintext 64 pt ⟨4096, 1000000, [], .bfv, .tc128⟩)
      = .ok ⟨floatValQ (1025 * 2 ^ 52 + (2 ^ 50 + 2 ^ 49 + 2 ^ 48 + 2 ^ 46))⟩ :=
  ⟨⟨by decide, by decide, by decide, by decide, by decide, by decide, by decide,
      by decide, by decide⟩,
    fractional_roundtrip 64 (1025 * 2 ^ 52 + (2 ^ 50 + 2 ^ 49 + 2 ^ 48 + 2 ^ 46))
      ⟨4096, 1000000, [], .bfv, .tc128⟩ (by decide) (by decide) (by decide) (by decide)
      (by decide) (by decide) (by decide) (by decide) (by decide)⟩

/-- C1 counterexample: under `n = 117 ≥ 53 + INT_BITS`, `t = 7 > 2`,
`INT_BITS = 64`, the normal double `(1 + 2^-52)·2^-10` (pattern
`1013·2^52 + 1`, exponent within `INT_BITS`) does not round-trip: its
lowest mantissa bit is written to coefficient index `117 - 62 = 55 < 64`,
which decodes as the integer power `2^55` with flipped sign, yielding
`2^-10 - 2^55` instead of the encoded value. -/
theorem fractional_roundtrip_counterexample :
    (1 ≤ expField (1013 * 2 ^ 52 + 1) ∧ expField (1013 * 2 ^ 52 + 1) ≤ 2046 ∧
      ((expField (1013 * 2 ^ 52 + 1) : ℤ) - 1023) + 1 ≤ ((64 : ℕ) : ℤ) ∧
      53 + 64 ≤ (117 : ℕ) ∧ (2 : ℕ) < 7) ∧
    (tryIntoPlaintext 64 (1013 * 2 ^ 52 + 1) ⟨117, 7, [], .bfv, .tc128⟩).bind
        (fun pt => tryFromPlaintext 64 pt ⟨117, 7, [], .bfv, .tc128⟩)
      = .ok ⟨(2 : ℚ) ^ (-10 : ℤ) - (2 : ℚ) ^ (55 : ℤ)⟩ ∧
    (2 : ℚ) ^ (-10 : ℤ) - (2 : ℚ) ^ (55 : ℤ) ≠ floatValQ (1013 * 2 ^ 52 + 1) := by
  refine ⟨⟨by decide, by decide, by decide, by decide, by decide⟩, ?_, ?_⟩
  · have henc : tryIntoPlaintext 64 (1013 * 2 ^ 52 + 1) ⟨117, 7, [], .bfv, .tc128⟩
        = .ok ⟨.seal [((List.replicate 117 0).set 55 6).set 107 6]⟩ := by decide
    rw [henc]
    simp only [Except.bind, tryFromPlaintext]
    rw [List.length_singleton, if_neg (by norm_num : ¬ (1 : ℕ) ≠ 1)]
    simp only [List.headI]
    have hlen : (((List.replicate 117 0).set 55 6).set 107 6 : List ℕ).length = 117 := by
      simp
    have hgetD : ∀ j : ℕ, (((List.replicate 117 0).set 55 6).set 107 6).getD j 0
        = if j = 107 then 6 else if j = 55 then 6 else 0 := by
      intro j
      by_cases h107 : j = 107
      · subst h107
        rw [getD_set_self _ _ _ (by simp), if_pos rfl]
      · rw [getD_set_ne _ _ _ _ (fun h => h107 h.symm), if_neg h107]
        by_cases h55 : j = 55
        · subst h55
          rw [getD_set_self _ _ _ (by simp), if_pos rfl]
        · rw [getD_set_ne _ _ _ _ (fun h => h55 h.symm), if_neg h55,
            getD_replicate_zero]
    have hpt : decodeVal 64 117 7 (((List.replicate 117 0).set 55 6).set 107 6)
        = (2 : ℚ) ^ (-10 : ℤ) - (2 : ℚ) ^ (55 : ℤ) := by
      rw [decodeVal_eq_sum, hlen]
      have hmin : min 117 117 = 117 := min_self 117
      rw [hmin]
      have hpt1 : ∀ j ∈ Finset.range 117,
          decContrib 64 117 7 (((List.replicate 117 0).set 55 6).set 107 6) j
            = (if j = 55 then -((2 : ℚ) ^ (55 : ℤ)) else 0)
              + (if j = 107 then (2 : ℚ) ^ (-10 : ℤ) else 0) := by
        intro j hj
        by_cases h107 : j = 107
        · subst h107
          simp only [decContrib, dPower]
          rw [hgetD 107, if_pos rfl]
          norm_num
        · by_cases h55 : j = 55
          · subst h55
            simp only [decContrib, dPower]
            rw [hgetD 55, if_neg (by norm_num), if_pos rfl]
            norm_num
          · rw [decContrib_of_coeff_zero _ _ _ _ _
              (by rw [hgetD j, if_neg h107, if_neg h55]) (by norm_num),
              if_neg h55, if_neg h107]
            norm_num
      rw [Finset.sum_congr rfl hpt1, Finset.sum_add_distrib,
        Finset.sum_ite_eq' (Finset.range 117) 55 (fun _ => -((2 : ℚ) ^ (55 : ℤ))),
        Finset.sum_ite_eq' (Finset.range 117) 107 (fun _ => (2 : ℚ) ^ (-10 : ℤ)),
        if_pos (by norm_num : (55 : ℕ) ∈ Finset.range 117),
        if_pos (by norm_num : (107 : ℕ) ∈ Finset.range 117)]
      ring
    rw [hpt]
  · have hval : floatValQ (1013 * 2 ^ 52 + 1)
        = ((2 ^ 52 + 1 : ℕ) : ℚ) * (2 : ℚ) ^ (-62 : ℤ) := by
      rw [floatValQ_normal _ (by decide),
        show expField (1013 * 2 ^ 52 + 1) = 1013 from by decide,
        show signField (1013 * 2 ^ 52 + 1) = 0 from by decide,
        show mantissaField (1013 * 2 ^ 52 + 1) = 1 from by decide,
        if_pos rfl]
      norm_num
    rw [hval]
    intro hcon
    have h10 : (2 : ℚ) ^ (-10 : ℤ) = 1 / 2 ^ 10 := by
      rw [zpow_neg]
      norm_num
    have h62 : (2 : ℚ) ^ (-62 : ℤ) = 1 / 2 ^ 62 := by
      rw [zpow_neg]
      norm_num
    have h55 : (2 : ℚ) ^ (55 : ℤ) = 2 ^ 55 := by
      norm_num
    rw [h10, h62, h55] at hcon
    norm_num at hcon

theorem findLiteral_none_iff (g : FrontendGraph) (lit : Literal) :
    findLiteral g lit = none ↔ ∀ i : ℕ, g.nodes[i]? ≠ some (Operation.literal lit) := by
  rw [findLiteral, List.head?_eq_none_iff, List.filterMap_eq_nil_iff]
  constructor
  · intro h i hcon
    have hi : i < g.nodes.length := by
      by_contra hge
      rw [List.getElem?_eq_none (by omega)] at hcon
      exact absurd hcon (by simp)
    have h2 := h i (List.mem_range.mpr hi)
    rw [hcon] at h2
    simp at h2
  · intro h i _
    split
    · rename_i x heq
      by_cases hx : x = lit
      · subst hx
        exact absurd heq (h i)
      · rw [if_neg hx]
    · rfl

theorem findLiteral_some (g : FrontendGraph) (lit : Literal) (x : ℕ)
    (h : findLiteral g lit = some x) : g.nodes[x]? = some (Operation.literal lit) := by
  rw [findLiteral] at h
  have hx : x ∈ (List.range g.nodes.length).filterMap
      (fun i => match g.nodes[i]? with
        | some (Operation.literal y) => if y = lit then some i else none
        | _ => none) := List.mem_of_mem_head? (by rw [h]; rfl)
  rw [List.mem_filterMap] at hx
  obtain ⟨i, hi, hfi⟩ := hx
  revert hfi
  split
  · rename_i y heq
    by_cases hy : y = lit
    · rw [if_pos hy]
      intro hfi
      injection hfi with hix
      subst hix
      rw [heq, hy]
    · rw [if_neg hy]
      intro hfi
      exact absurd hfi (by simp)
  · intro hfi
    exact absurd hfi (by simp)

theorem count_eq_zero_of_findLiteral_none (g : FrontendGraph) (lit : Literal)
    (h : findLiteral g lit = none) : g.nodes.count (Operation.literal lit) = 0 := by
  rw [List.count_eq_zero]
  intro hmem
  obtain ⟨i, hi, hget⟩ := List.getElem_of_mem hmem
  exact (findLiteral_none_iff g lit).mp h i (by rw [List.getElem?_eq_getElem hi, hget])

theorem findLiteral_append_self (g : FrontendGraph) (lit : Literal)
    (h : findLiteral g lit = none) :
    findLiteral ⟨g.nodes ++ [Operation.literal lit], g.edges⟩ lit = some g.nodes.length := by
  rw [findLiteral]
  have hrange : List.range (g.nodes ++ [Operation.literal lit]).length
      = List.range g.nodes.length ++ [g.nodes.length] := by
    rw [List.length_append, List.length_singleton, List.range_succ]
  rw [hrange, List.filterMap_append]
  have h1 : (List.range g.nodes.length).filterMap
      (fun i => match (g.nodes ++ [Operation.literal lit])[i]? with
        | some (Operation.literal x) => if x = lit then some i else none
        | _ => none) = [] := by
    rw [List.filterMap_eq_nil_iff]
    intro i hi
    have hi' : i < g.nodes.length := List.mem_range.mp hi
    rw [List.getElem?_append_left hi']
    have hnone := (findLiteral_none_iff g lit).mp h i
    split
    · rename_i x heq
      by_cases hx : x = lit
      · subst hx
        exact absurd heq hnone
      · rw [if_neg hx]
    · rfl
  have h2 : (g.nodes ++ [Operation.literal lit])[g.nodes.length]?
      = some (Operation.literal lit) := List.getElem?_concat_length _ _
  rw [h1]
  simp [h2]

/-- Every API-reachable context has at most one literal node per value. -/
theorem reachable_litCount (c : Context) (h : ContextReachable c) (v : Literal) :
    c.compilation.graph.nodes.count (Operation.literal v) ≤ 1 := by
  induction h with
  | new params => simp [Context.new]
  | addInput _ ih =>
    simpa [Context.addInput, FrontendGraph.addNode, List.count_append] using ih
  | addAddition l r _ ih =>
    simpa [Context.addAddition, Context.add2Input, FrontendGraph.addNode,
      FrontendGraph.addEdge, List.count_append] using ih
  | addSubtraction l r _ ih =>
    simpa [Context.addSubtraction, Context.add2Input, FrontendGraph.addNode,
      FrontendGraph.addEdge, List.count_append] using ih
  | addMultiplication l r _ ih =>
    simpa [Context.addMultiplication, Context.add2Input, FrontendGraph.addNode,
      FrontendGraph.addEdge, List.count_append] using ih
  | addRotateLeft l r _ ih =>
    simpa [Context.addRotateLeft, Context.add2Input, FrontendGraph.addNode,
      FrontendGraph.addEdge, List.count_append] using ih
  | addRotateRight l r _ ih =>
    simpa [Context.addRotateRight, Context.add2Input, FrontendGraph.addNode,
      FrontendGraph.addEdge, List.count_append] using ih
  | addOutput i _ ih =>
    simpa [Context.addOutput, Context.add1Input, FrontendGraph.addNode,
      FrontendGraph.addEdge, List.count_append] using ih
  | addLiteral lit hc ih =>
    rename_i c'
    cases hf : findLiteral c'.compilation.graph lit with
    | some x =>
      simpa [Context.addLiteral, hf] using ih
    | none =>
      have hcount := count_eq_zero_of_findLiteral_none _ _ hf
      by_cases hv : lit = v
      · subst hv
        simp [Context.addLiteral, hf, FrontendGraph.addNode, List.count_append, hcount]
      · simp only [Context.addLiteral, hf, FrontendGraph.addNode, List.count_append]
        have hz : ([Operation.literal lit] : List Operation).count (Operation.literal v)
            = 0 := by
          rw [List.count_eq_zero]
          simp only [List.mem_singleton]
          intro hcon
          injection hcon with h2
          exact hv h2.symm
        rw [hz, Nat.add_zero]
        exact ih

/-- C9: on any API-reachable context, calling `add_literal(v)` twice
returns the same id both times, leaves the context unchanged after the
second call, and leaves exactly one literal node with value `v`. -/
theorem add_literal_dedup (c : Context) (hreach : ContextReachable c) (v : Literal) :
    ((c.addLiteral v).1.addLiteral v).2 = (c.addLiteral v).2 ∧
      ((c.addLiteral v).1.addLiteral v).1 = (c.addLiteral v).1 ∧
      ((c.addLiteral v).1.addLiteral v).1.compilation.graph.nodes.count
        (Operation.literal v) = 1 := by
  cases hf : findLiteral c.compilation.graph v with
  | some x =>
    have hx := findLiteral_some _ _ _ hf
    have h1 : c.addLiteral v = (c, x) := by rw [Context.addLiteral, hf]
    rw [h1]
    refine ⟨by rw [h1], by rw [h1], ?_⟩
    simp only [h1]
    have hmem : Operation.literal v ∈ c.compilation.graph.nodes := by
      have hlt : x < c.compilation.graph.nodes.length := by
        by_contra hge
        rw [List.getElem?_eq_none (by omega)] at hx
        exact absurd hx (by simp)
      rw [List.getElem?_eq_getElem hlt] at hx
      injection hx with hx'
      rw [← hx']
      exact List.getElem_mem hlt
    have hge1 : 1 ≤ c.compilation.graph.nodes.count (Operation.literal v) :=
      List.one_le_count_iff.mpr hmem
    have hle1 := reachable_litCount c hreach v
    omega
  | none =>
    have h1 : c.addLiteral v
        = ({ c with compilation := ⟨⟨c.compilation.graph.nodes ++ [Operation.literal v],
              c.compilation.graph.edges⟩⟩ }, c.compilation.graph.nodes.length) := by
      rw [Context.addLiteral, hf]
      rfl
    have h2 : findLiteral ⟨c.compilation.graph.nodes ++ [Operation.literal v],
        c.compilation.graph.edges⟩ v = some c.compilation.graph.nodes.length :=
      findLiteral_append_self _ _ hf
    have h3 : (c.addLiteral v).1.addLiteral v = ((c.addLiteral v).1,
        c.compilation.graph.nodes.length) := by
      rw [h1, Context.addLiteral]
      simp only [h2]
    refine ⟨by rw [h3, h1], by rw [h3], ?_⟩
    rw [h3, h1]
    simp only [List.count_append]
    rw [count_eq_zero_of_findLiteral_none _ _ hf]
    simp

/-- C9 witness: two `add_literal(U64 7)` calls on a fresh context return
equal ids and leave exactly one literal-7 node. -/
theorem add_literal_dedup_witness :
    (((Context.new ⟨8, 5, [], .bfv, .tc128⟩).addLiteral (.u64 7)).1.addLiteral (.u64 7)).2
        = ((Context.new ⟨8, 5, [], .bfv, .tc128⟩).addLiteral (.u64 7)).2 ∧
      (((Context.new ⟨8, 5, [], .bfv, .tc128⟩).addLiteral (.u64 7)).1.addLiteral (.u64 7)).1
        = ((Context.new ⟨8, 5, [], .bfv, .tc128⟩).addLiteral (.u64 7)).1 ∧
      (((Context.new ⟨8, 5, [], .bfv, .tc128⟩).addLiteral (.u64 7)).1.addLiteral
          (.u64 7)).1.compilation.graph.nodes.count (Operation.literal (.u64 7)) = 1 :=
  add_literal_dedup (Context.new ⟨8, 5, [], .bfv, .tc128⟩)
    (ContextReachable.new _) (.u64 7)

/-- C3 (amended): lowering maps the frontend `InputCiphertext` node with
frontend id `k` to `InputCiphertext(k)` — the raw node index, not the
input-insertion ordinal — and `k` coincides with the insertion order among
input nodes exactly when every input node precedes every non-input node
(which the `#[circuit]` macro arranges; see the source's HACKHACK
comment). -/
theorem lowering_input_id (fc : FrontendCompilation) (k : ℕ)
    (hk : fc.graph.nodes[k]? = some Operation.inputCiphertext) :
    (lowerGraph fc).nodes[k]? = some (some ⟨.inputCiphertext k⟩) ∧
      ((∀ i j : ℕ, i < j → fc.graph.nodes[j]? = some Operation.inputCiphertext →
          fc.graph.nodes[i]? = some Operation.inputCiphertext) →
        inputPosition fc k = k) := by
  constructor
  · rw [lowerGraph]
    simp only [List.getElem?_mapIdx, hk]
    rfl
  · intro hpre
    rw [inputPosition]
    have hall : (List.range k).filter
        (fun j => fc.graph.nodes[j]? = some Operation.inputCiphertext)
        = List.range k := by
      rw [List.filter_eq_self]
      intro j hj
      have hjk : j < k := List.mem_range.mp hj
      exact decide_eq_true (hpre j k hjk hk)
    rw [hall, List.length_range]

/-- C3 witness: in a two-input frontend graph, the input at id 1 lowers to
`InputCiphertext(1)` and its insertion position among inputs is also 1. -/
theorem lowering_input_id_witness :
    ((⟨⟨[.inputCiphertext, .inputCiphertext], []⟩⟩ :
        FrontendCompilation).graph.nodes[1]? = some Operation.inputCiphertext) ∧
      ((lowerGraph ⟨⟨[.inputCiphertext, .inputCiphertext], []⟩⟩).nodes[1]?
          = some (some ⟨.inputCiphertext 1⟩) ∧
        ((∀ i j : ℕ, i < j →
            (⟨⟨[.inputCiphertext, .inputCiphertext], []⟩⟩ :
              FrontendCompilation).graph.nodes[j]? = some Operation.inputCiphertext →
            (⟨⟨[.inputCiphertext, .inputCiphertext], []⟩⟩ :
              FrontendCompilation).graph.nodes[i]? = some Operation.inputCiphertext) →
          inputPosition ⟨⟨[.inputCiphertext, .inputCiphertext], []⟩⟩ 1 = 1)) :=
  ⟨rfl, lowering_input_id ⟨⟨[.inputCiphertext, .inputCiphertext], []⟩⟩ 1 rfl⟩

/-- C3 counterexample: insert the literal `7` and then the first input on a
fresh context; the input receives frontend id 1, its insertion position
among input nodes is 0, yet lowering produces `InputCiphertext(1)`, not
`InputCiphertext(position) = InputCiphertext(0)`. -/
theorem lowering_input_id_counterexample :
    ((((Context.new ⟨8, 5, [], .bfv, .tc128⟩).addLiteral (.u64 7)).1.addInput).1.compilation
        = ⟨⟨[.literal (.u64 7), .inputCiphertext], []⟩⟩) ∧
      ((((Context.new ⟨8, 5, [], .bfv, .tc128⟩).addLiteral (.u64 7)).1.addInput).2 = 1) ∧
      inputPosition ⟨⟨[.literal (.u64 7), .inputCiphertext], []⟩⟩ 1 = 0 ∧
      (lowerGraph ⟨⟨[.literal (.u64 7), .inputCiphertext], []⟩⟩).nodes[1]?
        = some (some ⟨.inputCiphertext 1⟩) ∧
      some (some (NodeInfo.mk (.inputCiphertext 1)))
        ≠ some (some (NodeInfo.mk (.inputCiphertext
            (inputPosition ⟨⟨[.literal (.u64 7), .inputCiphertext], []⟩⟩ 1)))) := by
  decide

theorem getD_some_lt {α : Type} (l : List (Option α)) (i : ℕ) (x : α)
    (h : l.getD i none = some x) : i < l.length := by
  by_contra hge
  rw [List.getD_eq_default _ _ (by omega)] at h
  exact absurd h (by simp)

theorem mem_multiplyIds (c : Circuit) (i : ℕ) :
    i ∈ multiplyIds c ↔ i < c.nodes.length ∧ c.nodes.getD i none = some ⟨.multiply⟩ := by
  rw [multiplyIds, List.mem_filter, List.mem_range]
  simp

theorem nodup_multiplyIds (c : Circuit) : (multiplyIds c).Nodup :=
  (List.nodup_range _).filter _

theorem relinStep_nodes_length (c : Circuit) (m : ℕ) :
    (relinStep c m).nodes.length = c.nodes.length + 1 := by
  simp [relinStep]

theorem relinStep_getD_of_lt (c : Circuit) (m i : ℕ) (h : i < c.nodes.length) :
    (relinStep c m).nodes.getD i none = c.nodes.getD i none := by
  simp only [relinStep]
  exact List.getD_append _ _ _ _ h

theorem relinStep_getD_fresh (c : Circuit) (m : ℕ) :
    (relinStep c m).nodes.getD c.nodes.length none = some ⟨.relinearize⟩ := by
  simp only [relinStep]
  rw [List.getD_append_right _ _ _ _ (le_refl _), Nat.sub_self]
  rfl

theorem filter_src_of_filter_not {E : List (ℕ × ℕ × EdgeInfo)} (q m' : ℕ) (h : q ≠ m') :
    (E.filter (fun e => ¬ e.1 = m')).filter (fun e => e.1 = q)
      = E.filter (fun e => e.1 = q) := by
  rw [List.filter_filter]
  apply List.filter_congr
  intro a _
  by_cases ha : a.1 = q
  · subst ha
    simp [h]
  · simp [ha]

theorem relinStep_filter_src (c : Circuit) (m' q : ℕ) (hq : q ≠ m')
    (hqlen : q < c.nodes.length) :
    (relinStep c m').edges.filter (fun e => e.1 = q)
      = c.edges.filter (fun e => e.1 = q) := by
  simp only [relinStep]
  rw [List.filter_append]
  rw [filter_src_of_filter_not q m' hq]
  have h2 : ((m', c.nodes.length, EdgeInfo.unaryOperand)
        :: (c.edges.filter (fun e => e.1 = m')).map
          (fun e => (c.nodes.length, e.2.1, e.2.2))).filter (fun e => e.1 = q)
      = [] := by
    rw [List.filter_cons]
    rw [if_neg (by simp; omega)]
    rw [List.filter_eq_nil_iff]
    intro e he
    rw [List.mem_map] at he
    obtain ⟨e', _, he'⟩ := he
    subst he'
    simp
    omega
  rw [h2, List.append_nil]

theorem relinStep_mem_edges (c : Circuit) (m' : ℕ) (e : ℕ × ℕ × EdgeInfo)
    (he : e ∈ c.edges) (hsrc : e.1 ≠ m') : e ∈ (relinStep c m').edges := by
  simp only [relinStep]
  apply List.mem_append_left
  rw [List.mem_filter]
  exact ⟨he, by simpa using hsrc⟩

theorem relin_phase1 (c0 : Circuit) (m : ℕ) (hm : m < c0.nodes.length) :
    ∀ (l : List ℕ) (d : Circuit),
      (∀ m' ∈ l, m' ≠ m ∧ m' < c0.nodes.length) →
      (d.edges.filter (fun e => e.1 = m) = c0.edges.filter (fun e => e.1 = m) ∧
        c0.nodes.length ≤ d.nodes.length) →
      ((l.foldl relinStep d).edges.filter (fun e => e.1 = m)
          = c0.edges.filter (fun e => e.1 = m) ∧
        c0.nodes.length ≤ (l.foldl relinStep d).nodes.length) := by
  intro l
  induction l with
  | nil => intro d _ h; exact h
  | cons a l ih =>
    intro d hmem h
    obtain ⟨h1, h2⟩ := h
    rw [List.foldl_cons]
    obtain ⟨ham, halt⟩ := hmem a (List.mem_cons_self a l)
    apply ih _ (fun m' hm' => hmem m' (List.mem_cons_of_mem a hm'))
    constructor
    · rw [relinStep_filter_src d a m (by omega) (by omega)]
      exact h1
    · rw [relinStep_nodes_length]
      omega

theorem relin_phase2 (c0 : Circuit) (m r : ℕ) (hm : m < c0.nodes.length)
    (hr0 : c0.nodes.length ≤ r) :
    ∀ (l : List ℕ) (d : Circuit),
      (∀ m' ∈ l, m' ≠ m ∧ m' < c0.nodes.length) →
      (d.nodes.getD r none = some ⟨.relinearize⟩ ∧
        d.edges.filter (fun e => e.1 = m) = [(m, r, EdgeInfo.unaryOperand)] ∧
        (∀ e ∈ c0.edges, e.1 = m →
          ((r, e.2.1, e.2.2) : ℕ × ℕ × EdgeInfo) ∈ d.edges) ∧
        c0.nodes.length ≤ d.nodes.length) →
      ((l.foldl relinStep d).nodes.getD r none = some ⟨.relinearize⟩ ∧
        (l.foldl relinStep d).edges.filter (fun e => e.1 = m)
          = [(m, r, EdgeInfo.unaryOperand)] ∧
        (∀ e ∈ c0.edges, e.1 = m →
          ((r, e.2.1, e.2.2) : ℕ × ℕ × EdgeInfo) ∈ (l.foldl relinStep d).edges) ∧
        c0.nodes.length ≤ (l.foldl relinStep d).nodes.length) := by
  intro l
  induction l with
  | nil => intro d _ h; exact h
  | cons a l ih =>
    intro d hmem h
    obtain ⟨h1, h2, h3, h4⟩ := h
    rw [List.foldl_cons]
    obtain ⟨ham, halt⟩ := hmem a (List.mem_cons_self a l)
    apply ih _ (fun m' hm' => hmem m' (List.mem_cons_of_mem a hm'))
    have hrlt : r < d.nodes.length := getD_some_lt _ _ _ h1
    refine ⟨?_, ?_, ?_, ?_⟩
    · rw [relinStep_getD_of_lt _ _ _ hrlt]
      exact h1
    · rw [relinStep_filter_src d a m (by omega) (by omega)]
      exact h2
    · intro e he hsrc
      apply relinStep_mem_edges d a _ (h3 e he hsrc)
      show r ≠ a
      omega
    · rw [relinStep_nodes_length]
      omega

/-- C7 (spec-modelled): after the relinearization pass, every `Multiply`
node `m` of the input circuit has, in the output circuit, exactly one
outgoing edge, a `UnaryOperand` edge to a `Relinearize` node `r`; and
every original consumer edge `(m, c, role)` reappears as `(r, c, role)`. -/
theorem relinearization_inserts (c : Circuit) (m : ℕ)
    (hm : c.nodes.getD m none = some ⟨.multiply⟩)
    (hout : ∃ e ∈ c.edges, e.1 = m) :
    ∃ r, (applyInsertRelinearizations c).nodes.getD r none = some ⟨.relinearize⟩ ∧
      (applyInsertRelinearizations c).edges.filter (fun e => e.1 = m)
        = [(m, r, EdgeInfo.unaryOperand)] ∧
      ∀ e ∈ c.edges, e.1 = m →
        ((r, e.2.1, e.2.2) : ℕ × ℕ × EdgeInfo)
          ∈ (applyInsertRelinearizations c).edges := by
  have hmlt : m < c.nodes.length := getD_some_lt _ _ _ hm
  have hmem : m ∈ multiplyIds c := (mem_multiplyIds c m).mpr ⟨hmlt, hm⟩
  obtain ⟨l1, l2, hsplit⟩ := List.append_of_mem hmem
  have hnd := nodup_multiplyIds c
  rw [hsplit] at hnd
  have hnotmem : m ∉ l1 ∧ m ∉ l2 := by
    rw [List.nodup_append] at hnd
    obtain ⟨_, hnd2, hdisj⟩ := hnd
    rw [List.nodup_cons] at hnd2
    exact ⟨fun hc => hdisj hc (List.mem_cons_self m l2), hnd2.1⟩
  have hl1mem : ∀ m' ∈ l1, m' ≠ m ∧ m' < c.nodes.length := by
    intro m' hm'
    refine ⟨fun hc => hnotmem.1 (hc ▸ hm'), ?_⟩
    exact ((mem_multiplyIds c m').mp (by rw [hsplit]; exact List.mem_append_left _ hm')).1
  have hl2mem : ∀ m' ∈ l2, m' ≠ m ∧ m' < c.nodes.length := by
    intro m' hm'
    refine ⟨fun hc => hnotmem.2 (hc ▸ hm'), ?_⟩
    exact ((mem_multiplyIds c m').mp
      (by rw [hsplit]; exact List.mem_append_right _ (List.mem_cons_of_mem m hm'))).1
  rw [applyInsertRelinearizations, hsplit, List.foldl_append, List.foldl_cons]
  have hph1 := relin_phase1 c m hmlt l1 c hl1mem ⟨rfl, le_refl _⟩
  refine ⟨(l1.foldl relinStep c).nodes.length, ?_⟩
  have hr0 : c.nodes.length ≤ (l1.foldl relinStep c).nodes.length := hph1.2
  have hinv : (relinStep (l1.foldl relinStep c) m).nodes.getD
        (l1.foldl relinStep c).nodes.length none = some ⟨.relinearize⟩ ∧
      (relinStep (l1.foldl relinStep c) m).edges.filter (fun e => e.1 = m)
        = [(m, (l1.foldl relinStep c).nodes.length, EdgeInfo.unaryOperand)] ∧
      (∀ e ∈ c.edges, e.1 = m →
        (((l1.foldl relinStep c).nodes.length, e.2.1, e.2.2) : ℕ × ℕ × EdgeInfo)
          ∈ (relinStep (l1.foldl relinStep c) m).edges) ∧
      c.nodes.length ≤ (relinStep (l1.foldl relinStep c) m).nodes.length := by
    refine ⟨relinStep_getD_fresh _ _, ?_, ?_, ?_⟩
    · simp only [relinStep]
      rw [List.filter_append]
      have hpart1 : ((l1.foldl relinStep c).edges.filter
          (fun e => ¬ e.1 = m)).filter (fun e => e.1 = m) = [] := by
        rw [List.filter_eq_nil_iff]
        intro e he
        rw [List.mem_filter] at he
        simp only [decide_not] at he
        intro hcon
        have := he.2
        rw [Bool.not_eq_eq_eq_not] at this
        simp at this
        exact this (by simpa using hcon)
      rw [hpart1, List.nil_append, List.filter_cons, if_pos (by simp)]
      have hpart2 : (((l1.foldl relinStep c).edges.filter (fun e => e.1 = m)).map
          (fun e => ((l1.foldl relinStep c).nodes.length, e.2.1, e.2.2))).filter
            (fun e => e.1 = m) = [] := by
        rw [List.filter_eq_nil_iff]
        intro e he
        rw [List.mem_map] at he
        obtain ⟨e', _, he'⟩ := he
        subst he'
        simp only [decide_eq_true_eq]
        show ¬ (l1.foldl relinStep c).nodes.length = m
        omega
      rw [hpart2]
    · intro e he hsrc
      have hef : e ∈ c.edges.filter (fun e => e.1 = m) :=
        List.mem_filter.mpr ⟨he, by simpa using hsrc⟩
      rw [← hph1.1] at hef
      simp only [relinStep]
      apply List.mem_append_right
      apply List.mem_cons_of_mem
      rw [List.mem_map]
      exact ⟨e, hef, rfl⟩
    · rw [relinStep_nodes_length]
      omega
  have hfinal := relin_phase2 c m (l1.foldl relinStep c).nodes.length hmlt hr0
    l2 (relinStep (l1.foldl relinStep c) m) hl2mem hinv
  exact ⟨hfinal.1, hfinal.2.1, hfinal.2.2.1⟩

/-- C7 witness: in the two-input multiply circuit, the pass gives the
multiply node `2` the single outgoing edge `(2, 4, Unary)` to the fresh
`Relinearize` node `4`, and its consumer (the output node `3`) is rerouted
to `4`. -/
theorem relinearization_inserts_witness :
    ((⟨.bfv, [some ⟨.inputCiphertext 0⟩, some ⟨.inputCiphertext 1⟩, some ⟨.multiply⟩,
          some ⟨.outputCiphertext⟩],
        [(0, 2, .leftOperand), (1, 2, .rightOperand), (2, 3, .unaryOperand)]⟩ :
        Circuit).nodes.getD 2 none = some ⟨.multiply⟩) ∧
      (∃ e ∈ (⟨.bfv, [some ⟨.inputCiphertext 0⟩, some ⟨.inputCiphertext 1⟩,
          some ⟨.multiply⟩, some ⟨.outputCiphertext⟩],
        [(0, 2, .leftOperand), (1, 2, .rightOperand), (2, 3, .unaryOperand)]⟩ :
          Circuit).edges, e.1 = 2) ∧
      (∃ r, (applyInsertRelinearizations ⟨.bfv, [some ⟨.inputCiphertext 0⟩,
            some ⟨.inputCiphertext 1⟩, some ⟨.multiply⟩, some ⟨.outputCiphertext⟩],
          [(0, 2, .leftOperand), (1, 2, .rightOperand),
            (2, 3, .unaryOperand)]⟩).nodes.getD r none = some ⟨.relinearize⟩ ∧
        (applyInsertRelinearizations ⟨.bfv, [some ⟨.inputCiphertext 0⟩,
            some ⟨.inputCiphertext 1⟩, some ⟨.multiply⟩, some ⟨.outputCiphertext⟩],
          [(0, 2, .leftOperand), (1, 2, .rightOperand),
            (2, 3, .unaryOperand)]⟩).edges.filter (fun e => e.1 = 2)
          = [(2, r, EdgeInfo.unaryOperand)] ∧
        ∀ e ∈ (⟨.bfv, [some ⟨.inputCiphertext 0⟩, some ⟨.inputCiphertext 1⟩,
            some ⟨.multiply⟩, some ⟨.outputCiphertext⟩],
          [(0, 2, .leftOperand), (1, 2, .rightOperand), (2, 3, .unaryOperand)]⟩ :
            Circuit).edges, e.1 = 2 →
          ((r, e.2.1, e.2.2) : ℕ × ℕ × EdgeInfo)
            ∈ (applyInsertRelinearizations ⟨.bfv, [some ⟨.inputCiphertext 0⟩,
                some ⟨.inputCiphertext 1⟩, some ⟨.multiply⟩, some ⟨.outputCiphertext⟩],
              [(0, 2, .leftOperand), (1, 2, .rightOperand),
                (2, 3, .unaryOperand)]⟩).edges) :=
  ⟨rfl, ⟨(2, 3, .unaryOperand), by decide⟩,
    relinearization_inserts _ 2 rfl ⟨(2, 3, .unaryOperand), by decide⟩⟩

theorem mem_getOutputs (c : Circuit) (i : ℕ) :
    i ∈ getOutputs c ↔
      i < c.nodes.length ∧ c.nodes.getD i none = some ⟨.outputCiphertext⟩ := by
  rw [getOutputs, List.mem_filter, List.mem_range]
  simp

theorem subset_ancestorStep (c : Circuit) (S : Finset ℕ) : S ⊆ ancestorStep c S :=
  Finset.subset_union_left

theorem mem_ancestorStep (c : Circuit) (S : Finset ℕ) (v : ℕ) :
    v ∈ ancestorStep c S ↔ v ∈ S ∨ ∃ w, edgeRel c v w ∧ w ∈ S := by
  rw [ancestorStep, Finset.mem_union]
  constructor
  · rintro (h | h)
    · exact Or.inl h
    · rw [List.mem_toFinset, List.mem_map] at h
      obtain ⟨e, he, rfl⟩ := h
      rw [List.mem_filter] at he
      exact Or.inr ⟨e.2.1, ⟨e.2.2, he.1⟩, by simpa using he.2⟩
  · rintro (h | ⟨w, ⟨role, hrole⟩, hw⟩)
    · exact Or.inl h
    · refine Or.inr ?_
      rw [List.mem_toFinset, List.mem_map]
      exact ⟨(v, w, role), List.mem_filter.mpr ⟨hrole, by simpa using hw⟩, rfl⟩

theorem ancestorIter_sound (c : Circuit) (S0 : Finset ℕ) :
    ∀ (k : ℕ) (v : ℕ), v ∈ (ancestorStep c)^[k] S0 →
      ∃ u ∈ S0, Relation.ReflTransGen (edgeRel c) v u := by
  intro k
  induction k with
  | zero => exact fun v hv => ⟨v, hv, Relation.ReflTransGen.refl⟩
  | succ k ih =>
    intro v hv
    rw [Function.iterate_succ_apply'] at hv
    rcases (mem_ancestorStep c _ v).mp hv with h | ⟨w, hvw, hw⟩
    · exact ih v h
    · obtain ⟨u, hu, hpath⟩ := ih w hw
      exact ⟨u, hu, Relation.ReflTransGen.head hvw hpath⟩

theorem ancestorIter_subset_univ (c : Circuit) (S0 : Finset ℕ) :
    ∀ k : ℕ, (ancestorStep c)^[k] S0 ⊆ S0 ∪ (c.edges.map (fun e => e.1)).toFinset := by
  intro k
  induction k with
  | zero => exact Finset.subset_union_left
  | succ k ih =>
    rw [Function.iterate_succ_apply']
    intro v hv
    rcases (mem_ancestorStep c _ v).mp hv with h | ⟨w, ⟨role, hrole⟩, _⟩
    · exact ih h
    · apply Finset.mem_union_right
      rw [List.mem_toFinset, List.mem_map]
      exact ⟨(v, w, role), hrole, rfl⟩

theorem ancestorIter_mono (c : Circuit) (S0 : Finset ℕ) (k : ℕ) :
    (ancestorStep c)^[k] S0 ⊆ (ancestorStep c)^[k + 1] S0 := by
  rw [Function.iterate_succ_apply']
  exact subset_ancestorStep c _

theorem ancestorIter_grow (c : Circuit) (S0 : Finset ℕ) :
    ∀ k : ℕ, (∀ j, j < k → (ancestorStep c)^[j + 1] S0 ≠ (ancestorStep c)^[j] S0) →
      k ≤ ((ancestorStep c)^[k] S0).card := by
  intro k
  induction k with
  | zero => exact fun _ => Nat.zero_le _
  | succ k ih =>
    intro h
    have h1 := ih (fun j hj => h j (by omega))
    have hss : (ancestorStep c)^[k] S0 ⊂ (ancestorStep c)^[k + 1] S0 :=
      (ancestorIter_mono c S0 k).ssubset_of_ne (Ne.symm (h k (by omega)))
    have := Finset.card_lt_card hss
    omega

theorem ancestorIter_stab (c : Circuit) (S0 : Finset ℕ) (N : ℕ)
    (hbound : (S0 ∪ (c.edges.map (fun e => e.1)).toFinset).card ≤ N) :
    ancestorStep c ((ancestorStep c)^[N] S0) = (ancestorStep c)^[N] S0 := by
  have hstab : ∃ j, j ≤ N ∧
      (ancestorStep c)^[j + 1] S0 = (ancestorStep c)^[j] S0 := by
    by_contra hcon
    push_neg at hcon
    have hgrow := ancestorIter_grow c S0 (N + 1) (fun j hj => hcon j (by omega))
    have hle : ((ancestorStep c)^[N + 1] S0).card
        ≤ (S0 ∪ (c.edges.map (fun e => e.1)).toFinset).card :=
      Finset.card_le_card (ancestorIter_subset_univ c S0 (N + 1))
    omega
  obtain ⟨j, hjN, hj⟩ := hstab
  have hstay : ∀ d : ℕ, (ancestorStep c)^[j + d] S0 = (ancestorStep c)^[j] S0 := by
    intro d
    induction d with
    | zero => rfl
    | succ d ihd =>
      have heq : j + (d + 1) = (j + d) + 1 := by omega
      rw [heq, Function.iterate_succ_apply', ihd,
        ← Function.iterate_succ_apply' (ancestorStep c) j S0]
      exact hj
  have hNj : (ancestorStep c)^[N] S0 = (ancestorStep c)^[j] S0 := by
    have : N = j + (N - j) := by omega
    rw [this, hstay]
  rw [hNj, ← Function.iterate_succ_apply' (ancestorStep c) j S0]
  exact hj

theorem ancestorSet_iff (c : Circuit) (hlive : liveEdges c) (v : ℕ) :
    v ∈ ancestorSet c ↔
      ∃ o ∈ getOutputs c, Relation.ReflTransGen (edgeRel c) v o := by
  constructor
  · intro hv
    obtain ⟨u, hu, hpath⟩ := ancestorIter_sound c _ _ v hv
    exact ⟨u, List.mem_toFinset.mp hu, hpath⟩
  · rintro ⟨o, ho, hpath⟩
    have hbound : ((getOutputs c).toFinset
        ∪ (c.edges.map (fun e => e.1)).toFinset).card ≤ c.nodes.length := by
      have hsub : (getOutputs c).toFinset ∪ (c.edges.map (fun e => e.1)).toFinset
          ⊆ Finset.range c.nodes.length := by
        intro x hx
        rw [Finset.mem_union] at hx
        rw [Finset.mem_range]
        rcases hx with hx | hx
        · exact ((mem_getOutputs c x).mp (List.mem_toFinset.mp hx)).1
        · rw [List.mem_toFinset, List.mem_map] at hx
          obtain ⟨e, he, rfl⟩ := hx
          obtain ⟨y, hy⟩ := Option.ne_none_iff_exists'.mp (hlive e he).1
          exact getD_some_lt _ _ _ hy
      calc ((getOutputs c).toFinset ∪ (c.edges.map (fun e => e.1)).toFinset).card
          ≤ (Finset.range c.nodes.length).card := Finset.card_le_card hsub
        _ = c.nodes.length := Finset.card_range _
    have hfix := ancestorIter_stab c (getOutputs c).toFinset c.nodes.length hbound
    have hclosed : ∀ a b, edgeRel c a b → b ∈ ancestorSet c → a ∈ ancestorSet c := by
      intro a b hab hb
      have hmem : a ∈ ancestorStep c (ancestorSet c) :=
        (mem_ancestorStep _ _ _).mpr (Or.inr ⟨b, hab, hb⟩)
      rw [ancestorSet] at hmem ⊢
      exact hfix ▸ hmem
    have hbase : o ∈ ancestorSet c := by
      have hsub0 : ∀ k, (getOutputs c).toFinset
          ⊆ (ancestorStep c)^[k] (getOutputs c).toFinset := by
        intro k
        induction k with
        | zero => exact subset_refl _
        | succ k ihk => exact ihk.trans (ancestorIter_mono c _ k)
      exact hsub0 _ (List.mem_toFinset.mpr ho)
    induction hpath using Relation.ReflTransGen.head_induction_on with
    | refl => exact hbase
    | head hab _ ih => exact hclosed _ _ hab ih

theorem relin_live_fold (c : Circuit) :
    ∀ (l : List ℕ) (d : Circuit),
      (∀ m' ∈ l, m' < c.nodes.length ∧ c.nodes.getD m' none = some ⟨.multiply⟩) →
      (liveEdges d ∧ c.nodes.length ≤ d.nodes.length ∧
        (∀ i, i < c.nodes.length → d.nodes.getD i none = c.nodes.getD i none)) →
      (liveEdges (l.foldl relinStep d) ∧
        c.nodes.length ≤ (l.foldl relinStep d).nodes.length ∧
        (∀ i, i < c.nodes.length →
          (l.foldl relinStep d).nodes.getD i none = c.nodes.getD i none)) := by
  intro l
  induction l with
  | nil => intro d _ h; exact h
  | cons a l ih =>
    intro d hmem h
    obtain ⟨hlv, hlen, hpres⟩ := h
    obtain ⟨halt, hamul⟩ := hmem a (List.mem_cons_self a l)
    rw [List.foldl_cons]
    apply ih _ (fun m' hm' => hmem m' (List.mem_cons_of_mem a hm'))
    refine ⟨?_, ?_, ?_⟩
    · intro e he
      simp only [relinStep] at he
      rcases List.mem_append.mp he with he1 | he1
      · have he2 : e ∈ d.edges := (List.mem_filter.mp he1).1
        obtain ⟨hs, ht⟩ := hlv e he2
        obtain ⟨x, hx⟩ := Option.ne_none_iff_exists'.mp hs
        obtain ⟨y, hy⟩ := Option.ne_none_iff_exists'.mp ht
        constructor
        · rw [relinStep_getD_of_lt _ _ _ (getD_some_lt _ _ _ hx)]
          exact hs
        · rw [relinStep_getD_of_lt _ _ _ (getD_some_lt _ _ _ hy)]
          exact ht
      · rcases List.mem_cons.mp he1 with he2 | he2
        · subst he2
          constructor
          · show (relinStep d a).nodes.getD a none ≠ none
            rw [relinStep_getD_of_lt _ _ _ (by omega), hpres a halt, hamul]
            simp
          · show (relinStep d a).nodes.getD d.nodes.length none ≠ none
            rw [relinStep_getD_fresh]
            simp
        · rw [List.mem_map] at he2
          obtain ⟨e', he', rfl⟩ := he2
          have he'2 : e' ∈ d.edges := (List.mem_filter.mp he').1
          obtain ⟨_, ht⟩ := hlv e' he'2
          obtain ⟨y, hy⟩ := Option.ne_none_iff_exists'.mp ht
          constructor
          · show (relinStep d a).nodes.getD d.nodes.length none ≠ none
            rw [relinStep_getD_fresh]
            simp
          · show (relinStep d a).nodes.getD e'.2.1 none ≠ none
            rw [relinStep_getD_of_lt _ _ _ (getD_some_lt _ _ _ hy)]
            exact ht
    · rw [relinStep_nodes_length]
      omega
    · intro i hi
      rw [relinStep_getD_of_lt _ _ _ (by omega)]
      exact hpres i hi

theorem relin_preserves_live (c : Circuit) (h : liveEdges c) :
    liveEdges (applyInsertRelinearizations c) :=
  (relin_live_fold c (multiplyIds c) c
    (fun m' hm' => (mem_multiplyIds c m').mp hm')
    ⟨h, le_refl _, fun _ _ => rfl⟩).1

theorem prune_getD (c : Circuit) (v : ℕ) :
    (prune c).nodes.getD v none
      = if v < c.nodes.length ∧ v ∈ ancestorSet c then c.nodes.getD v none
        else none := by
  rcases Nat.lt_or_ge v c.nodes.length with hv | hv
  · have h1 : (prune c).nodes.getD v none
        = if v ∈ ancestorSet c then c.nodes[v] else none := by
      rw [List.getD_eq_getD_get?, List.get?_eq_getElem?]
      simp only [prune, List.getElem?_mapIdx, List.getElem?_eq_getElem hv]
      rfl
    rw [h1]
    by_cases hset : v ∈ ancestorSet c
    · rw [if_pos hset, if_pos ⟨hv, hset⟩, List.getD_eq_getElem _ _ hv]
    · rw [if_neg hset, if_neg (by tauto)]
  · rw [if_neg (by omega)]
    apply List.getD_eq_default
    simp only [prune]
    rw [List.length_mapIdx]
    omega

/-- C8 (spec-modelled): after the pruning step of the backend pipeline, a
node is present exactly when it has a directed path along data-dependency
edges of the relinearized circuit to some `OutputCiphertext` node
(outputs included), and every surviving node keeps its node label and
id. -/
theorem prune_output_reachability (c0 : Circuit) (hlive : liveEdges c0) (v : ℕ) :
    ((transform_intermediate_represenation c0).nodes.getD v none ≠ none ↔
      ∃ o ∈ getOutputs (applyInsertRelinearizations c0),
        Relation.ReflTransGen (edgeRel (applyInsertRelinearizations c0)) v o) ∧
    ((transform_intermediate_represenation c0).nodes.getD v none ≠ none →
      (transform_intermediate_represenation c0).nodes.getD v none
        = (applyInsertRelinearizations c0).nodes.getD v none) := by
  have hlive1 := relin_preserves_live c0 hlive
  have hgetD := prune_getD (applyInsertRelinearizations c0) v
  rw [transform_intermediate_represenation] at *
  constructor
  · constructor
    · intro hne
      rw [hgetD] at hne
      by_cases hcond : v < (applyInsertRelinearizations c0).nodes.length ∧
          v ∈ ancestorSet (applyInsertRelinearizations c0)
      · exact (ancestorSet_iff _ hlive1 v).mp hcond.2
      · rw [if_neg hcond] at hne
        exact absurd rfl hne
    · intro hpath
      have hset : v ∈ ancestorSet (applyInsertRelinearizations c0) :=
        (ancestorSet_iff _ hlive1 v).mpr hpath
      have hlivev : (applyInsertRelinearizations c0).nodes.getD v none ≠ none := by
        obtain ⟨o, ho, hp⟩ := hpath
        rcases Relation.ReflTransGen.cases_head hp with heq | ⟨w, hvw, _⟩
        · rw [heq, ((mem_getOutputs _ o).mp ho).2]
          simp
        · obtain ⟨role, hrole⟩ := hvw
          exact (hlive1 _ hrole).1
      have hvlt : v < (applyInsertRelinearizations c0).nodes.length := by
        obtain ⟨x, hx⟩ := Option.ne_none_iff_exists'.mp hlivev
        exact getD_some_lt _ _ _ hx
      rw [hgetD, if_pos ⟨hvlt, hset⟩]
      exact hlivev
  · intro hne
    rw [hgetD] at hne ⊢
    by_cases hcond : v < (applyInsertRelinearizations c0).nodes.length ∧
        v ∈ ancestorSet (applyInsertRelinearizations c0)
    · rw [if_pos hcond]
    · rw [if_neg hcond] at hne
      exact absurd rfl hne

/-- C8 witness: the one-input/one-output circuit has live edges, and node
`0` (the input feeding the output) is present after the pipeline with a
path to output node `1`. -/
theorem prune_output_reachability_witness :
    liveEdges ⟨.bfv, [some ⟨.inputCiphertext 0⟩, some ⟨.outputCiphertext⟩],
        [(0, 1, .unaryOperand)]⟩ ∧
      (((transform_intermediate_represenation ⟨.bfv, [some ⟨.inputCiphertext 0⟩,
            some ⟨.outputCiphertext⟩],
          [(0, 1, .unaryOperand)]⟩).nodes.getD 0 none ≠ none ↔
        ∃ o ∈ getOutputs (applyInsertRelinearizations ⟨.bfv,
            [some ⟨.inputCiphertext 0⟩, some ⟨.outputCiphertext⟩],
          [(0, 1, .unaryOperand)]⟩),
          Relation.ReflTransGen (edgeRel (applyInsertRelinearizations ⟨.bfv,
              [some ⟨.inputCiphertext 0⟩, some ⟨.outputCiphertext⟩],
            [(0, 1, .unaryOperand)]⟩)) 0 o) ∧
      ((transform_intermediate_represenation ⟨.bfv, [some ⟨.inputCiphertext 0⟩,
            some ⟨.outputCiphertext⟩],
          [(0, 1, .unaryOperand)]⟩).nodes.getD 0 none ≠ none →
        (transform_intermediate_represenation ⟨.bfv, [some ⟨.inputCiphertext 0⟩,
            some ⟨.outputCiphertext⟩],
          [(0, 1, .unaryOperand)]⟩).nodes.getD 0 none
          = (applyInsertRelinearizations ⟨.bfv, [some ⟨.inputCiphertext 0⟩,
              some ⟨.outputCiphertext⟩],
            [(0, 1, .unaryOperand)]⟩).nodes.getD 0 none)) :=
  ⟨by decide,
    prune_output_reachability ⟨.bfv, [some ⟨.inputCiphertext 0⟩,
        some ⟨.outputCiphertext⟩], [(0, 1, .unaryOperand)]⟩ (by decide) 0⟩

end Sunscreen
